import Mathlib

/-!
Verification development for the snapdocs documentation mirror
(src/main.go).  The core under study is the per-topic caching layer:
`Forum.Topic` (fresh hit / refresh / stale fallback / evict),
`Forum.Refresh` (explicit invalidation), the cache writes of
`Forum.Search`, and the compressed content pair
`Topic.setPost` / `Topic.Content`.

Conventions of the embedding:
- Go `time.Time` values are modelled as natural numbers (nanoseconds
  since the zero time); the zero `time.Time` of a freshly created
  cache entry is `0`.  Durations are the source's constants in
  nanoseconds.
- `Forum.Topic` is modelled at the parsed-identifier level: the
  `topicPathID` URL parsing that precedes the cached core is outside
  the modelled core, and the claims quantify over identifiers.  The
  two separate `time.Now()` calls of the source (line `now :=
  time.Now()` at entry and `cache.time = time.Now()` after a
  successful fetch) appear as the two parameters `now` and `now2`.
- The network fetch (lines 391-427) is modelled by `runFetch` applied
  to a `FetchOutcome` parameter describing what the HTTP layer and the
  JSON decoding produced.
- The external compression library (github.com/golang/snappy) is
  modelled by an executable encoder/decoder pair for the snappy block
  format restricted to literal elements (a valid snappy stream, and
  what the library produces for incompressible input), with the byte
  payload of a string modelled by its list of Unicode code points.
-/

/-! ### Model of the external snappy library -/

/-- Little-endian base-128 varint encoding of `n`, as written by the
snappy encoder's length preamble.  The first argument is structural
fuel; `n + 1` is always enough. -/
def putUvarintAux : Nat → Nat → List Nat
  | 0, _ => []
  | fuel + 1, n =>
    if n < 128 then [n] else (n % 128 + 128) :: putUvarintAux fuel (n / 128)

/-- Varint encoding of `n` (the snappy header's decoded-length field). -/
def putUvarint (n : Nat) : List Nat :=
  putUvarintAux (n + 1) n

/-- Varint decoding, returning the value and the remaining input. -/
def readUvarint : List Nat → Option (Nat × List Nat)
  | [] => none
  | b :: rest =>
    if b < 128 then some (b, rest)
    else
      match readUvarint rest with
      | some (m, rest2) => some (m * 128 + (b - 128), rest2)
      | none => none

/-- Tag bytes of a snappy literal element whose literal length is
`n1 + 1`, following the encoder's `emitLiteral`. -/
def litHeader (n1 : Nat) : List Nat :=
  if n1 < 60 then [n1 * 4]
  else if n1 < 256 then [240, n1]
  else if n1 < 65536 then [244, n1 % 256, n1 / 256]
  else if n1 < 16777216 then [248, n1 % 256, n1 / 256 % 256, n1 / 65536]
  else [252, n1 % 256, n1 / 256 % 256, n1 / 65536 % 256, n1 / 16777216]

/-- Decoding of a literal element's length from the upper six tag bits
`x` and the following bytes, as in the decoder's literal case. -/
def readLitLen (x : Nat) (rest : List Nat) : Option (Nat × List Nat) :=
  if x < 60 then some (x + 1, rest)
  else if x = 60 then
    match rest with
    | b0 :: r => some (b0 + 1, r)
    | [] => none
  else if x = 61 then
    match rest with
    | b0 :: b1 :: r => some (b0 + b1 * 256 + 1, r)
    | _ => none
  else if x = 62 then
    match rest with
    | b0 :: b1 :: b2 :: r => some (b0 + b1 * 256 + b2 * 65536 + 1, r)
    | _ => none
  else
    match rest with
    | b0 :: b1 :: b2 :: b3 :: r =>
      some (b0 + b1 * 256 + b2 * 65536 + b3 * 16777216 + 1, r)
    | _ => none

/-- Decoding loop over the elements of a snappy body.  Copy elements
(tag low bits nonzero) are not produced by the modelled encoder and
make the decoder fail, like a corrupt stream.  The fuel is structural;
the input length plus one is always enough. -/
def decodeElems : Nat → List Nat → Option (List Nat)
  | _, [] => some []
  | 0, _ :: _ => none
  | fuel + 1, tag :: rest =>
    if tag % 4 = 0 then
      match readLitLen (tag / 4) rest with
      | some (len, rest2) =>
        if len ≤ rest2.length then
          match decodeElems fuel (rest2.drop len) with
          | some out => some (rest2.take len ++ out)
          | none => none
        else none
      | none => none
    else none

/-- Model of `snappy.Encode(nil, bs)`: decoded-length preamble followed
by one literal element (none for empty input). -/
def snappyEncode (bs : List Nat) : List Nat :=
  putUvarint bs.length ++
    (match bs with
     | [] => []
     | _ :: _ => litHeader (bs.length - 1) ++ bs)

/-- Model of `snappy.Decode(nil, bs)`: `none` is the error result. -/
def snappyDecode (bs : List Nat) : Option (List Nat) :=
  match readUvarint bs with
  | none => none
  | some (dLen, body) =>
    match decodeElems (body.length + 1) body with
    | none => none
    | some out => if out.length = dLen then some out else none

/-! ### Strings as byte payloads

The Go code compresses `[]byte(content)` and converts the decoded
bytes back with `string(content)`.  The byte payload of a string is
modelled by its list of Unicode code points; the backwards conversion
is total like Go's, mapping invalid code points to a default
character. -/

/-- Model of the `[]byte(s)` conversion applied before compression. -/
def bytesOfString (s : String) : List Nat :=
  s.data.map Char.toNat

/-- Model of the `string(bs)` conversion applied after decompression. -/
def stringOfBytes (bs : List Nat) : String :=
  ⟨bs.map Char.ofNat⟩

/-! ### The data model: `Post` and `Topic` (src/main.go lines 194-252) -/

/-- Character-list test used by the replacement scan: does `s` start
with `pat`? -/
def startsWithList : List Char → List Char → Bool
  | _, [] => true
  | [], _ :: _ => false
  | c :: s, p :: ps => c = p && startsWithList s ps

/-- Replacement scan of `strings.Replace(s, old, new, -1)` for a
non-empty `old`: replace the leftmost occurrences, left to right and
non-overlapping.  The first argument is structural fuel; the length of
`s` plus one is enough for non-empty patterns. -/
def replaceFuel : Nat → List Char → List Char → List Char → List Char
  | 0, s, _, _ => s
  | fuel + 1, s, pat, rep =>
    match s with
    | [] => []
    | c :: rest =>
      if startsWithList s pat then
        rep ++ replaceFuel fuel (s.drop pat.length) pat rep
      else c :: replaceFuel fuel rest pat rep

/-- Model of Go `strings.Replace(s, old, new, -1)`, as called by
`Topic.setPost` (always with a non-empty `old`). -/
def strReplace (s pat rep : String) : String :=
  ⟨replaceFuel (s.data.length + 1) s.data pat.data rep.data⟩

/-- The `Post` struct: author/attribution metadata plus the raw cooked
HTML delivered by the forum. -/
structure Post where
  username : String
  cooked : String
  updatedAt : Nat
  topicID : Int
  blurb : String
deriving DecidableEq

/-- The `Topic` struct: document metadata, the optional first post, and
the snappy-compressed rewritten content payload. -/
structure Topic where
  id : Int
  slug : String
  title : String
  category : Int
  bumpedAt : Nat
  post : Option Post
  content : List Nat
deriving DecidableEq

/-- Model of `Topic.setPost` (lines 213-220): attach the post, take its
cooked HTML, blank the stored copy, rewrite forum-relative hrefs, and
store the snappy-compressed result. -/
def Topic.setPost (t : Topic) (post : Post) : Topic :=
  let content := post.cooked
  let post2 : Post := { post with cooked := "" }
  let content2 :=
    strReplace content ("href=\"/") ("href=\"https://forum.snapcraft.io/")
  let content3 :=
    strReplace content2 ("href=\"https://forum.snapcraft.io/t/") ("href=\"/")
  { t with post := some post2, content := snappyEncode (bytesOfString content3) }

/-- Model of `Topic.Content` (lines 222-229): decompress the stored
payload, falling back to an apology string when decompression fails. -/
def Topic.Content (t : Topic) : String :=
  match snappyDecode t.content with
  | none => "Internal error: cannot decompress content. Please report!"
  | some content => stringOfBytes content

/-! ### The fetch (src/main.go lines 389-427)

`FetchOutcome` describes what the HTTP transport and the JSON layer
produce for one `httpClient.Get` of a topic; `runFetch` is the
straight-line code between the `Get` call and the cache update. -/

/-- What the HTTP and JSON layers yield for one fetch. -/
inductive FetchOutcome where
  | noResponse
  | readFailure (statusCode : Nat)
  | unmarshalFailure (statusCode : Nat)
  | parsed (statusCode : Nat) (topic : Option Topic) (posts : List Post)
deriving DecidableEq

/-- The distinct error returns of the fetch section. -/
inductive FetchError where
  | transport
  | notFound
  | badStatus (code : Nat)
  | readFailed
  | unmarshalFailed
  | emptyPage
deriving DecidableEq

/-- Model of lines 391-427: status-code dispatch, body read, JSON
decode, the empty-response guard, and `setPost` of the first post. -/
def runFetch : FetchOutcome → Except FetchError Topic
  | .noResponse => .error .transport
  | .readFailure code =>
    if code = 200 then .error .readFailed
    else if code = 401 ∨ code = 404 then .error .notFound
    else .error (.badStatus code)
  | .unmarshalFailure code =>
    if code = 200 then .error .unmarshalFailed
    else if code = 401 ∨ code = 404 then .error .notFound
    else .error (.badStatus code)
  | .parsed code topic posts =>
    if code = 200 then
      match topic with
      | none => .error .emptyPage
      | some t =>
        match posts with
        | [] => .error .emptyPage
        | p :: _ => .ok (t.setPost p)
    else if code = 401 ∨ code = 404 then .error .notFound
    else .error (.badStatus code)

/-! ### Association-list helpers for the cache map -/

/-- Lookup in an association list (the Go map read). -/
def alookup {α : Type} (l : List (Int × α)) (id : Int) : Option α :=
  match l with
  | [] => none
  | p :: rest => if p.1 = id then some p.2 else alookup rest id

/-- Removal (the Go `delete`). -/
def aerase {α : Type} : List (Int × α) → Int → List (Int × α)
  | [], _ => []
  | p :: rest, id => if p.1 = id then aerase rest id else p :: aerase rest id

/-- Insertion or replacement (the Go map assignment). -/
def ainsert {α : Type} (l : List (Int × α)) (id : Int) (v : α) : List (Int × α) :=
  (id, v) :: aerase l id

/-! ### The cache (src/main.go lines 254-433)

Sequential model of one complete `Forum.Topic` call, one
`Forum.Refresh`, and the cache write-back loop of `Forum.Search`.
The concurrency of the source is modelled separately below; here each
operation runs to completion, which is what the locking produces for
non-overlapping calls. -/

/-- The `topicCache` entry: last-successful-fetch time (`0` when never
fetched) and the optional cached record. -/
structure topicCache where
  time : Nat
  topic : Option Topic
deriving DecidableEq

/-- `topicCacheTimeout` (line 267): one hour, in nanoseconds. -/
def topicCacheTimeout : Nat := 3600000000000

/-- `topicCacheFallback` (line 268): seven days, in nanoseconds. -/
def topicCacheFallback : Nat := 604800000000000

/-- The `Forum` struct: the identifier-to-entry cache map. -/
structure Forum where
  cache : List (Int × topicCache)
deriving DecidableEq

/-- Model of `Forum.Refresh` (lines 270-282) at the parsed-identifier
level: unconditionally delete the entry. -/
def Forum.Refresh (f : Forum) (id : Int) : Forum :=
  ⟨aerase f.cache id⟩

/-- Model of the cache write-back loop of `Forum.Search` (lines
334-346): every topic of the (already `setPost`-processed) result list
replaces the cache entry of its identifier, timestamped `now`.  The
HTTP and JSON work that builds the list is summarized by the `topics`
parameter. -/
def Forum.Search (f : Forum) (topics : List Topic) (now : Nat) : Forum :=
  topics.foldl (fun g t => ⟨ainsert g.cache t.id ⟨now, some t⟩⟩) f

/-- What one `Forum.Topic` call produces: the forum state afterwards,
the returned topic and error, and whether control reached the
`httpClient.Get` call (line 391). -/
structure TopicResult where
  forum : Forum
  topic : Option Topic
  err : Option FetchError
  fetched : Bool
deriving DecidableEq

/-- Model of `Forum.Topic` (lines 351-433) at the parsed-identifier
level.  `now` is the `time.Now()` read at entry (line 357), `out` what
the transport and JSON layers produce if the fetch runs, and `now2`
the second `time.Now()` read on the success path (line 430).
Control flow follows the source: look up or create the entry; return
the cached topic when `cache.time.Add(topicCacheTimeout).After(now)`;
otherwise fetch; on success store the new record with timestamp
`now2`; on failure return the stale record when one exists and
`cache.time.Add(topicCacheFallback).After(now)`, else evict the entry
and propagate the error. -/
def Forum.Topic (f : Forum) (id : Int) (now : Nat) (out : FetchOutcome)
    (now2 : Nat) : TopicResult :=
  let c := (alookup f.cache id).getD ⟨0, none⟩
  let f1 : Forum :=
    match alookup f.cache id with
    | some _ => f
    | none => ⟨ainsert f.cache id ⟨0, none⟩⟩
  if c.time + topicCacheTimeout > now then
    ⟨f1, c.topic, none, false⟩
  else
    match runFetch out with
    | .ok t => ⟨⟨ainsert f1.cache id ⟨now2, some t⟩⟩, some t, none, true⟩
    | .error e =>
      if c.topic.isSome ∧ c.time + topicCacheFallback > now then
        ⟨f1, c.topic, none, true⟩
      else
        ⟨⟨aerase f1.cache id⟩, none, some e, true⟩

/-- The record/timestamp coupling of the cache: an entry whose
last-successful-fetch timestamp is set holds a record. -/
def WF (f : Forum) : Prop :=
  ∀ p ∈ f.cache, p.2.time ≠ 0 → p.2.topic.isSome

instance WF.decide (f : Forum) : Decidable (WF f) := by
  unfold WF
  infer_instance

/-! ### Interleaved model of the concurrent cache

The claims about locking need the interleavings the Go scheduler can
produce.  Each request-handling goroutine becomes a thread with a
fixed role (one `Forum.Topic`, `Forum.Refresh` or `Forum.Search` call,
with its clock readings and fetch outcome fixed up front); a scheduler
is a list of thread indices.  Cache entries live in a heap addressed
by creation index, so that distinct entry objects for the same
identifier remain distinguishable, as they are through Go pointers.

Granularity: every critical section of the store mutex (`f.mu`) is a
single atomic step, since the map is only ever touched under it; the
content of an entry is only ever touched under the entry mutex, so the
stretch from acquiring the entry lock to the freshness decision is one
step.  The fetch, performed while the entry lock is held, is its own
step (its completion is the observable event the single-flight claim
counts), as is the post-fetch processing and, on the eviction path,
the store-locked deletion.  A thread whose next instruction must wait
for a lock simply does not move when scheduled. -/

/-- The call a thread is executing, with its inputs fixed up front:
for a `Topic` call the two clock readings and the fetch outcome, for a
`Search` call the already-processed result topics and its clock
reading. -/
inductive Role where
  | topicCall (id : Int) (now : Nat) (out : FetchOutcome) (now2 : Nat)
  | refreshCall (id : Int)
  | searchCall (topics : List Topic) (now : Nat)
deriving DecidableEq

/-- Program counter of a thread.  `haveRef r` is a `Topic` call that
has passed the store-locked lookup-or-create and is about to take (or
is blocked on) the entry lock of heap object `r`; `fetching` holds the
entry lock with the fetch still in flight; `fetched` has completed the
fetch; `evicting` has failed with no usable stale data and still has
to perform the store-locked delete.  `done` carries the call's return
value. -/
inductive TPC where
  | start
  | haveRef (r : Nat)
  | fetching (r : Nat)
  | fetched (r : Nat)
  | evicting (r : Nat)
  | done (topic : Option Topic) (err : Option FetchError)
deriving DecidableEq

/-- One goroutine: its fixed role and its current program counter. -/
structure Thread where
  role : Role
  pc : TPC
deriving DecidableEq

/-- One `topicCache` object on the heap: the identifier it was created
for, its two content fields, and the holder of its mutex. -/
structure EntryObj where
  forId : Int
  time : Nat
  topic : Option Topic
  owner : Option Nat
deriving DecidableEq

/-- Global state: all entry objects ever allocated (addressed by
index), the store's map, the threads, and how many fetches have been
observed to completion. -/
structure Sys where
  heap : List EntryObj
  map : List (Int × Nat)
  threads : List Thread
  fetchCount : Nat
deriving DecidableEq

/-- Placeholder object for out-of-range heap reads (never reached from
well-formed states). -/
def emptyObj : EntryObj := ⟨0, 0, none, none⟩

/-- Read a heap object. -/
def heapGet (s : Sys) (r : Nat) : EntryObj := s.heap.getD r emptyObj

/-- Update the mutex holder of heap object `r`. -/
def setOwner (h : List EntryObj) (r : Nat) (o : Option Nat) : List EntryObj :=
  h.set r { h.getD r emptyObj with owner := o }

/-- Update the content of heap object `r` (the success path's
`cache.topic = ...; cache.time = ...`). -/
def setEnt (h : List EntryObj) (r : Nat) (tm : Nat) (tp : Option Topic) :
    List EntryObj :=
  h.set r { h.getD r emptyObj with time := tm, topic := tp }

/-- The store-locked write-back loop of `Forum.Search`: each topic gets
a freshly allocated entry object that replaces the map binding of its
identifier. -/
def searchIns : List Topic → List EntryObj → List (Int × Nat) → Nat →
    List EntryObj × List (Int × Nat)
  | [], h, m, _ => (h, m)
  | t :: ts, h, m, now =>
    searchIns ts (h ++ [(⟨t.id, now, some t, none⟩ : EntryObj)]) (ainsert m t.id h.length) now

/-- One atomic step of thread `tid` currently at `th`, following the
source's `Forum.Topic`, `Forum.Refresh` and `Forum.Search`.  A blocked
or finished thread leaves the state unchanged. -/
def stepThread (s : Sys) (tid : Nat) (th : Thread) : Sys :=
  match th.pc, th.role with
  | .start, .topicCall id _ _ _ =>
    match alookup s.map id with
    | some r => { s with threads := s.threads.set tid ⟨th.role, .haveRef r⟩ }
    | none =>
      { s with
        heap := s.heap ++ [⟨id, 0, none, none⟩],
        map := (id, s.heap.length) :: s.map,
        threads := s.threads.set tid ⟨th.role, .haveRef s.heap.length⟩ }
  | .haveRef r, .topicCall _ now _ _ =>
    match (heapGet s r).owner with
    | some _ => s
    | none =>
      if (heapGet s r).time + topicCacheTimeout > now then
        { s with threads := s.threads.set tid ⟨th.role, .done (heapGet s r).topic none⟩ }
      else
        { s with
          heap := setOwner s.heap r (some tid),
          threads := s.threads.set tid ⟨th.role, .fetching r⟩ }
  | .fetching r, .topicCall _ _ _ _ =>
    { s with
      fetchCount := s.fetchCount + 1,
      threads := s.threads.set tid ⟨th.role, .fetched r⟩ }
  | .fetched r, .topicCall _ now out now2 =>
    match runFetch out with
    | .ok t =>
      { s with
        heap := setOwner (setEnt s.heap r now2 (some t)) r none,
        threads := s.threads.set tid ⟨th.role, .done (some t) none⟩ }
    | .error _ =>
      if (heapGet s r).topic.isSome ∧ (heapGet s r).time + topicCacheFallback > now then
        { s with
          heap := setOwner s.heap r none,
          threads := s.threads.set tid ⟨th.role, .done (heapGet s r).topic none⟩ }
      else
        { s with threads := s.threads.set tid ⟨th.role, .evicting r⟩ }
  | .evicting r, .topicCall id _ out _ =>
    match runFetch out with
    | .error e =>
      { s with
        map := aerase s.map id,
        heap := setOwner s.heap r none,
        threads := s.threads.set tid ⟨th.role, .done none (some e)⟩ }
    | .ok _ => s
  | .done _ _, _ => s
  | .start, .refreshCall id =>
    { s with
      map := aerase s.map id,
      threads := s.threads.set tid ⟨th.role, .done none none⟩ }
  | .start, .searchCall topics now =>
    { s with
      heap := (searchIns topics s.heap s.map now).1,
      map := (searchIns topics s.heap s.map now).2,
      threads := s.threads.set tid ⟨th.role, .done none none⟩ }
  | _, .refreshCall _ => s
  | _, .searchCall _ _ => s

/-- One scheduler step: run thread `tid` if it exists. -/
def step (s : Sys) (tid : Nat) : Sys :=
  match s.threads.get? tid with
  | some th => stepThread s tid th
  | none => s

/-- Run a whole schedule. -/
def runSched (s : Sys) (sched : List Nat) : Sys :=
  sched.foldl step s

/-- The initial state for a set of concurrent calls: empty store, all
threads at their first instruction. -/
def initSys (roles : List Role) : Sys :=
  ⟨[], [], roles.map (fun ro => ⟨ro, .start⟩), 0⟩

/-- The heap object a `Topic` thread currently refers to, if any. -/
def pcRef : TPC → Option Nat
  | .haveRef r => some r
  | .fetching r => some r
  | .fetched r => some r
  | .evicting r => some r
  | _ => none

/-- The heap object whose mutex the thread holds, if any. -/
def pcHolds : TPC → Option Nat
  | .fetching r => some r
  | .fetched r => some r
  | .evicting r => some r
  | _ => none

/-- Whether a thread has returned. -/
def TPC.isDone : TPC → Bool
  | .done _ _ => true
  | _ => false

/-- Whether a thread is past its fetch but has not returned. -/
def inFetchSection : TPC → Bool
  | .fetched _ => true
  | .evicting _ => true
  | _ => false

/-- No thread of the system has returned yet. -/
def NoDone (s : Sys) : Prop :=
  ∀ th ∈ s.threads, th.pc.isDone = false

instance NoDone.dec (s : Sys) : Decidable (NoDone s) := by
  unfold NoDone
  infer_instance

/-- Whether a role is a `Topic` call for identifier `id0`. -/
def Role.topicFor : Role → Int → Bool
  | .topicCall id _ _ _, id0 => id = id0
  | _, _ => false

/-- All threads are `Topic` calls for the same identifier `id0`. -/
def AllTopic (id0 : Int) (s : Sys) : Prop :=
  ∀ th ∈ s.threads, th.role.topicFor id0 = true

/-- Structural invariant of every reachable state: the store's map has
at most one binding per identifier; map bindings and thread references
address allocated objects created for the matching identifier; mutex
ownership agrees exactly with the program counters of the threads. -/
structure SysInv (s : Sys) : Prop where
  mapNodup : (s.map.map Prod.fst).Nodup
  mapBound : ∀ p ∈ s.map, p.2 < s.heap.length ∧ (heapGet s p.2).forId = p.1
  thrRef : ∀ tid th r, s.threads.get? tid = some th → pcRef th.pc = some r →
    r < s.heap.length ∧
      ∀ id now out now2, th.role = .topicCall id now out now2 →
        (heapGet s r).forId = id
  holdOwner : ∀ tid th r, s.threads.get? tid = some th →
    pcHolds th.pc = some r → (heapGet s r).owner = some tid
  ownerHold : ∀ r tid, r < s.heap.length → (heapGet s r).owner = some tid →
    ∃ th, s.threads.get? tid = some th ∧ pcHolds th.pc = some r

/-- Additional invariant of a system whose threads are all `Topic`
calls for the same identifier: while no call has returned, every
thread reference agrees with the store's binding, and at most one
fetch has completed, accounted for by a thread still inside its fetch
section. -/
structure SameInv (id0 : Int) (s : Sys) : Prop where
  allTopic : AllTopic id0 s
  align : NoDone s → ∀ tid th r, s.threads.get? tid = some th →
    pcRef th.pc = some r → alookup s.map id0 = some r
  fcount : NoDone s → s.fetchCount ≤ 1 ∧
    (s.fetchCount = 0 ∨
      ∃ tid th, s.threads.get? tid = some th ∧ inFetchSection th.pc = true)

/-! ### Concrete sample inputs used by witnesses and counterexamples -/

/-- A sample record as the upstream would deliver it. -/
def sampleTopic : Topic := ⟨3781, "doc", "Doc page", 15, 0, none, []⟩

/-- A sample first post. -/
def samplePost : Post := ⟨"user", "see href=\"/t/other/9\" here", 0, 3781, "blurb"⟩

/-- A fetch that succeeds with the sample record. -/
def outSuccess : FetchOutcome := .parsed 200 (some sampleTopic) [samplePost]

/-- A fetch whose transport fails. -/
def outFailure : FetchOutcome := .noResponse

/-- A cache entry fetched at a realistic time. -/
def sampleCache : topicCache := ⟨4000000000000, some sampleTopic⟩

/-- A forum whose cache holds one entry, for identifier 7. -/
def forumOne : Forum := ⟨[(7, sampleCache)]⟩

/-- A concurrent `Topic` call for identifier 5 at a realistic time
whose fetch fails. -/
def roleFail : Role := .topicCall 5 4000000000000 .noResponse 4000000000001

/-! ### Library lemmas for the embedding -/

theorem readUvarint_putUvarintAux (fuel : Nat) :
    ∀ n rest, n < fuel →
      readUvarint (putUvarintAux fuel n ++ rest) = some (n, rest) := by
  induction fuel with
  | zero => intro n rest h; omega
  | succ fuel ih =>
    intro n rest h
    by_cases hn : n < 128
    · simp [putUvarintAux, hn, readUvarint]
    · have hrec : n / 128 < fuel := by omega
      simp only [putUvarintAux, hn, if_false, List.cons_append, readUvarint]
      have hb : ¬ (n % 128 + 128 < 128) := by omega
      simp only [hb, if_false, ih (n / 128) rest hrec]
      have heq : n / 128 * 128 + (n % 128 + 128 - 128) = n := by omega
      simp only [Nat.add_sub_cancel] at heq ⊢
      simp [heq]

theorem readUvarint_putUvarint (n : Nat) (rest : List Nat) :
    readUvarint (putUvarint n ++ rest) = some (n, rest) :=
  readUvarint_putUvarintAux (n + 1) n rest (Nat.lt_succ_self n)

theorem decodeElems_litHeader (bs : List Nat) (hbs : bs ≠ []) (fuel : Nat) :
    decodeElems (fuel + 1) (litHeader (bs.length - 1) ++ bs) = some bs := by
  have hlen : 1 ≤ bs.length := by
    cases bs with
    | nil => simp at hbs
    | cons a l => simp
  have htake : bs.take (bs.length - 1 + 1) = bs := by
    have : bs.length - 1 + 1 = bs.length := by omega
    rw [this, List.take_length]
  have hdrop : bs.drop (bs.length - 1 + 1) = [] := by
    have : bs.length - 1 + 1 = bs.length := by omega
    rw [this, List.drop_length]
  have hle : bs.length - 1 + 1 ≤ bs.length := by omega
  set n1 := bs.length - 1 with hn1
  by_cases h60 : n1 < 60
  · have hx : n1 * 4 % 4 = 0 := by omega
    have hx2 : n1 * 4 / 4 = n1 := by omega
    simp only [litHeader, h60, if_true, List.cons_append, List.nil_append,
      decodeElems, hx, if_true, hx2, readLitLen, h60, if_true, hle]
    simp [htake, hdrop, decodeElems]
  · by_cases h256 : n1 < 256
    · simp only [litHeader, h60, if_false, h256, if_true, List.cons_append,
        List.nil_append, decodeElems, readLitLen]
      norm_num
      simp [htake, hdrop, decodeElems, hle]
    · by_cases h65536 : n1 < 65536
      · have harith : n1 % 256 + n1 / 256 * 256 + 1 = n1 + 1 := by omega
        simp only [litHeader, h60, if_false, h256, if_false, h65536, if_true,
          List.cons_append, List.nil_append, decodeElems, readLitLen]
        norm_num
        rw [harith]
        simp [htake, hdrop, decodeElems, hle]
      · by_cases h224 : n1 < 16777216
        · have harith : n1 % 256 + n1 / 256 % 256 * 256 + n1 / 65536 * 65536 + 1
              = n1 + 1 := by omega
          simp only [litHeader, h60, if_false, h256, if_false, h65536, if_false,
            h224, if_true, List.cons_append, List.nil_append, decodeElems, readLitLen]
          norm_num
          rw [harith]
          simp [htake, hdrop, decodeElems, hle]
        · have harith : n1 % 256 + n1 / 256 % 256 * 256 + n1 / 65536 % 256 * 65536
              + n1 / 16777216 * 16777216 + 1 = n1 + 1 := by omega
          simp only [litHeader, h60, if_false, h256, if_false, h65536, if_false,
            h224, if_false, List.cons_append, List.nil_append, decodeElems, readLitLen]
          norm_num
          rw [harith]
          simp [htake, hdrop, decodeElems, hle]

theorem snappyDecode_snappyEncode (bs : List Nat) :
    snappyDecode (snappyEncode bs) = some bs := by
  cases hbs : bs with
  | nil =>
    simp [snappyEncode, snappyDecode, putUvarint, putUvarintAux, readUvarint,
      decodeElems]
  | cons a l =>
    have hne : bs ≠ [] := by rw [hbs]; simp
    rw [← hbs]
    simp only [snappyEncode, hbs]
    rw [← hbs]
    have hdec := readUvarint_putUvarint bs.length (litHeader (bs.length - 1) ++ bs)
    simp only [snappyDecode, hdec]
    have hbody := decodeElems_litHeader bs hne (litHeader (bs.length - 1) ++ bs).length
    rw [hbody]
    simp

theorem char_ofNat_toNat (c : Char) : Char.ofNat c.toNat = c := by
  have hv : c.val.toNat.isValidChar := c.valid
  simp only [Char.ofNat, Char.toNat, hv, dif_pos]
  rfl

theorem stringOfBytes_bytesOfString (s : String) :
    stringOfBytes (bytesOfString s) = s := by
  cases s with
  | mk data =>
    simp only [stringOfBytes, bytesOfString, List.map_map]
    congr 1
    induction data with
    | nil => rfl
    | cons c cs ih => simp [char_ofNat_toNat, ih]

theorem alookup_ainsert_self {α : Type} (l : List (Int × α)) (id : Int) (v : α) :
    alookup (ainsert l id v) id = some v := by
  simp [ainsert, alookup]

theorem alookup_aerase_self {α : Type} (l : List (Int × α)) (id : Int) :
    alookup (aerase l id) id = none := by
  induction l with
  | nil => simp [aerase, alookup]
  | cons p rest ih =>
    by_cases hp : p.1 = id
    · simpa [aerase, hp] using ih
    · simpa [aerase, alookup, hp] using ih

theorem alookup_aerase_ne {α : Type} (l : List (Int × α)) (id id' : Int)
    (h : id ≠ id') : alookup (aerase l id) id' = alookup l id' := by
  induction l with
  | nil => simp [aerase, alookup]
  | cons p rest ih =>
    by_cases hp : p.1 = id
    · have hne : p.1 ≠ id' := by rw [hp]; exact h
      simp only [aerase, if_pos hp, ih, alookup, if_neg hne]
    · simp only [aerase, if_neg hp, alookup, ih]

theorem alookup_ainsert_ne {α : Type} (l : List (Int × α)) (id id' : Int) (v : α)
    (h : id ≠ id') : alookup (ainsert l id v) id' = alookup l id' := by
  simp only [ainsert, alookup, h, if_neg]
  simp only [h, if_false]
  exact alookup_aerase_ne l id id' h

theorem aerase_of_alookup_none {α : Type} (l : List (Int × α)) (id : Int)
    (h : alookup l id = none) : aerase l id = l := by
  induction l with
  | nil => simp [aerase]
  | cons p rest ih =>
    simp only [alookup] at h
    by_cases hp : p.1 = id
    · simp [hp] at h
    · simp only [hp, if_false] at h
      simp [aerase, hp, ih h]

theorem aerase_aerase {α : Type} (l : List (Int × α)) (id : Int) :
    aerase (aerase l id) id = aerase l id := by
  induction l with
  | nil => simp [aerase]
  | cons p rest ih =>
    by_cases hp : p.1 = id
    · simp [aerase, hp, ih]
    · simp [aerase, hp, ih]

theorem aerase_ainsert {α : Type} (l : List (Int × α)) (id : Int) (v : α) :
    aerase (ainsert l id v) id = aerase l id := by
  simp [ainsert, aerase, aerase_aerase]

theorem ainsert_ainsert {α : Type} (l : List (Int × α)) (id : Int) (v w : α) :
    ainsert (ainsert l id v) id w = ainsert l id w := by
  simp [ainsert, aerase, aerase_aerase]

theorem alookup_mem {α : Type} (l : List (Int × α)) (id : Int) (v : α)
    (h : alookup l id = some v) : (id, v) ∈ l := by
  induction l with
  | nil => simp [alookup] at h
  | cons p rest ih =>
    simp only [alookup] at h
    by_cases hp : p.1 = id
    · rw [if_pos hp] at h
      have hpv : p = (id, v) := by
        cases p
        simp only [Option.some.injEq] at h
        simp_all

      rw [hpv]
      exact List.mem_cons_self _ _
    · rw [if_neg hp] at h
      exact List.mem_cons_of_mem _ (ih h)

/-! ### Branch lemmas for `Forum.Topic` -/

theorem Topic_fresh_present {f : Forum} {id : Int} {c : topicCache}
    {now now2 : Nat} {out : FetchOutcome}
    (hc : alookup f.cache id = some c) (hf : c.time + topicCacheTimeout > now) :
    Forum.Topic f id now out now2 = ⟨f, c.topic, none, false⟩ := by
  simp [Forum.Topic, hc, hf]

theorem Topic_success_present {f : Forum} {id : Int} {c : topicCache}
    {now now2 : Nat} {out : FetchOutcome} {t : Topic}
    (hc : alookup f.cache id = some c)
    (hs : ¬ (c.time + topicCacheTimeout > now)) (hok : runFetch out = .ok t) :
    Forum.Topic f id now out now2
      = ⟨⟨ainsert f.cache id ⟨now2, some t⟩⟩, some t, none, true⟩ := by
  simp [Forum.Topic, hc, hs, hok]

theorem Topic_fallback_present {f : Forum} {id : Int} {c : topicCache}
    {now now2 : Nat} {out : FetchOutcome} {e : FetchError}
    (hc : alookup f.cache id = some c)
    (hs : ¬ (c.time + topicCacheTimeout > now)) (herr : runFetch out = .error e)
    (hfb : c.topic.isSome ∧ c.time + topicCacheFallback > now) :
    Forum.Topic f id now out now2 = ⟨f, c.topic, none, true⟩ := by
  simp [Forum.Topic, hc, hs, herr, hfb]

theorem Topic_evict_present {f : Forum} {id : Int} {c : topicCache}
    {now now2 : Nat} {out : FetchOutcome} {e : FetchError}
    (hc : alookup f.cache id = some c)
    (hs : ¬ (c.time + topicCacheTimeout > now)) (herr : runFetch out = .error e)
    (hnfb : ¬ (c.topic.isSome ∧ c.time + topicCacheFallback > now)) :
    Forum.Topic f id now out now2 = ⟨⟨aerase f.cache id⟩, none, some e, true⟩ := by
  simp [Forum.Topic, hc, hs, herr, hnfb]

theorem Topic_fresh_absent {f : Forum} {id : Int} {now now2 : Nat}
    {out : FetchOutcome} (habs : alookup f.cache id = none)
    (hf : 0 + topicCacheTimeout > now) :
    Forum.Topic f id now out now2
      = ⟨⟨ainsert f.cache id ⟨0, none⟩⟩, none, none, false⟩ := by
  simp only [Forum.Topic, habs, Option.getD_none]
  split
  · rfl
  · exact absurd hf ‹_›

theorem Topic_success_absent {f : Forum} {id : Int} {now now2 : Nat}
    {out : FetchOutcome} {t : Topic} (habs : alookup f.cache id = none)
    (hs : ¬ ((0:Nat) + topicCacheTimeout > now)) (hok : runFetch out = .ok t) :
    Forum.Topic f id now out now2
      = ⟨⟨ainsert f.cache id ⟨now2, some t⟩⟩, some t, none, true⟩ := by
  simp only [Forum.Topic, habs, Option.getD_none]
  split
  · exact absurd ‹_› hs
  · simp [hok, ainsert_ainsert]

theorem Topic_fail_absent {f : Forum} {id : Int} {now now2 : Nat}
    {out : FetchOutcome} {e : FetchError} (habs : alookup f.cache id = none)
    (hs : ¬ ((0:Nat) + topicCacheTimeout > now)) (herr : runFetch out = .error e) :
    Forum.Topic f id now out now2 = ⟨f, none, some e, true⟩ := by
  simp only [Forum.Topic, habs]
  simp only [Option.getD_none, hs, if_false, herr]
  have hfb : ¬ ((none : Option Topic).isSome = true ∧ (0:Nat) + topicCacheFallback > now) := by
    simp
  simp only [hfb, if_false]
  have : aerase (ainsert f.cache id ⟨0, none⟩) id = f.cache := by
    rw [aerase_ainsert, aerase_of_alookup_none _ _ habs]
  simp [this]

theorem topic_fetched_of_stale_present {f : Forum} {id : Int} {c : topicCache}
    {now now2 : Nat} {out : FetchOutcome}
    (hc : alookup f.cache id = some c) (hs : c.time + topicCacheTimeout ≤ now) :
    (Forum.Topic f id now out now2).fetched = true := by
  have hs' : ¬ (c.time + topicCacheTimeout > now) := by omega
  cases hok : runFetch out with
  | ok t => rw [Topic_success_present hc hs' hok]
  | error e =>
    by_cases hfb : c.topic.isSome ∧ c.time + topicCacheFallback > now
    · rw [Topic_fallback_present hc hs' hok hfb]
    · rw [Topic_evict_present hc hs' hok hfb]

theorem topic_fetched_of_absent {f : Forum} {id : Int} {now now2 : Nat}
    {out : FetchOutcome} (habs : alookup f.cache id = none)
    (hnow : topicCacheTimeout ≤ now) :
    (Forum.Topic f id now out now2).fetched = true := by
  have hs : ¬ ((0:Nat) + topicCacheTimeout > now) := by omega
  cases hok : runFetch out with
  | ok t => rw [Topic_success_absent habs hs hok]
  | error e => rw [Topic_fail_absent habs hs hok]

theorem mem_aerase {α : Type} {l : List (Int × α)} {id : Int} {p : Int × α} :
    p ∈ aerase l id → p ∈ l := by
  induction l with
  | nil => intro h; simp [aerase] at h
  | cons q rest ih =>
    intro h
    by_cases hq : q.1 = id
    · rw [show aerase (q :: rest) id = aerase rest id from by simp [aerase, hq]] at h
      exact List.mem_cons_of_mem _ (ih h)
    · rw [show aerase (q :: rest) id = q :: aerase rest id from by simp [aerase, hq]] at h
      rcases List.mem_cons.mp h with h1 | h2
      · exact h1 ▸ List.mem_cons_self _ _
      · exact List.mem_cons_of_mem _ (ih h2)

theorem mem_ainsert {α : Type} {l : List (Int × α)} {id : Int} {v : α}
    {p : Int × α} (h : p ∈ ainsert l id v) : p = (id, v) ∨ p ∈ l := by
  simp only [ainsert, List.mem_cons] at h
  rcases h with h | h
  · exact Or.inl h
  · exact Or.inr (mem_aerase h)

/-! ### Claim theorems: the sequential cache policy -/

/-- C9: after `t.setPost p`, `t.Content` returns exactly `p`'s original
cooked text with every `href="/` rewritten to
`href="https://forum.snapcraft.io/` and then every
`href="https://forum.snapcraft.io/t/` rewritten back to `href="/`; the
stored compressed payload decompresses to exactly that text, so the
decompression-error branch of `Content` is never taken. -/
theorem C9_content_roundtrip (t : Topic) (p : Post) :
    (t.setPost p).Content =
      strReplace (strReplace p.cooked ("href=\"/")
          ("href=\"https://forum.snapcraft.io/"))
        ("href=\"https://forum.snapcraft.io/t/") ("href=\"/")
    ∧ snappyDecode (t.setPost p).content =
        some (bytesOfString (strReplace (strReplace p.cooked ("href=\"/")
            ("href=\"https://forum.snapcraft.io/"))
          ("href=\"https://forum.snapcraft.io/t/") ("href=\"/"))) := by
  constructor
  · simp [Topic.setPost, Topic.Content, snappyDecode_snappyEncode,
      stringOfBytes_bytesOfString]
  · simp [Topic.setPost, snappyDecode_snappyEncode]

/-- C1: a `Forum.Topic` call on an identifier whose entry holds a
record last fetched at `c.time` returns that same record with no error
and without invoking the fetch when `now - c.time < topicCacheTimeout`,
and invokes the fetch when `now - c.time ≥ topicCacheTimeout`. -/
theorem C1_freshness (f : Forum) (id : Int) (c : topicCache) (rec : Topic)
    (now now2 : Nat) (out : FetchOutcome)
    (hc : alookup f.cache id = some c) (hrec : c.topic = some rec) :
    (now < c.time + topicCacheTimeout →
        Forum.Topic f id now out now2 = ⟨f, some rec, none, false⟩)
    ∧ (c.time + topicCacheTimeout ≤ now →
        (Forum.Topic f id now out now2).fetched = true) := by
  constructor
  · intro hfresh
    rw [Topic_fresh_present hc hfresh, hrec]
  · intro hstale
    exact topic_fetched_of_stale_present hc hstale

/-- Witness for C1 at a concrete forum: a fresh hit within the hour
returns the cached record without fetching, and a call an hour later
reaches the fetch. -/
theorem C1_freshness_witness :
    Forum.Topic forumOne 7 4000000000005 outFailure 0
      = ⟨forumOne, some sampleTopic, none, false⟩
    ∧ (Forum.Topic forumOne 7 8000000000000 outFailure 0).fetched = true := by
  constructor
  · exact (C1_freshness forumOne 7 sampleCache sampleTopic 4000000000005 0
      outFailure (by decide) (by decide)).1 (by decide)
  · exact (C1_freshness forumOne 7 sampleCache sampleTopic 8000000000000 0
      outFailure (by decide) (by decide)).2 (by decide)

/-- C2: with a record last fetched at `c.time` and the fetch failing,
a call at any time in `(c.time, c.time + topicCacheFallback)` returns
the original record with the error suppressed; a call past the
fallback window returns the fetch error and removes the entry. -/
theorem C2_fallback_window (f : Forum) (id : Int) (c : topicCache) (rec : Topic)
    (now now2 : Nat) (out : FetchOutcome) (e : FetchError)
    (hc : alookup f.cache id = some c) (hrec : c.topic = some rec)
    (herr : runFetch out = .error e) :
    (c.time < now → now < c.time + topicCacheFallback →
        (Forum.Topic f id now out now2).forum = f
        ∧ (Forum.Topic f id now out now2).topic = some rec
        ∧ (Forum.Topic f id now out now2).err = none)
    ∧ (c.time + topicCacheFallback ≤ now →
        Forum.Topic f id now out now2 = ⟨⟨aerase f.cache id⟩, none, some e, true⟩
        ∧ alookup (Forum.Topic f id now out now2).forum.cache id = none) := by
  constructor
  · intro _ hwin
    by_cases hfr : c.time + topicCacheTimeout > now
    · rw [Topic_fresh_present hc hfr, hrec]
      exact ⟨rfl, rfl, rfl⟩
    · rw [Topic_fallback_present hc hfr herr ⟨by simp [hrec], hwin⟩, hrec]
      exact ⟨rfl, rfl, rfl⟩
  · intro hpast
    have htf : topicCacheTimeout ≤ topicCacheFallback := by decide
    have hfr : ¬ (c.time + topicCacheTimeout > now) := by omega
    have hnfb : ¬ (c.topic.isSome ∧ c.time + topicCacheFallback > now) := by
      rintro ⟨-, hx⟩
      omega
    have heq := @Topic_evict_present f id c now now2 out e hc hfr herr hnfb
    refine ⟨heq, ?_⟩
    rw [heq]
    exact alookup_aerase_self f.cache id

/-- Witness for C2 at a concrete forum: a failing fetch within the
seven-day window serves the stale record with no error; past the
window the error surfaces and the entry is gone. -/
theorem C2_fallback_window_witness :
    ((Forum.Topic forumOne 7 8000000000000 outFailure 0).topic = some sampleTopic
      ∧ (Forum.Topic forumOne 7 8000000000000 outFailure 0).err = none)
    ∧ (Forum.Topic forumOne 7 700000000000000 outFailure 0
        = ⟨⟨[]⟩, none, some .transport, true⟩) := by
  constructor
  · exact ⟨((C2_fallback_window forumOne 7 sampleCache sampleTopic 8000000000000 0
        outFailure .transport (by decide) (by decide) rfl).1
        (by decide) (by decide)).2.1,
      ((C2_fallback_window forumOne 7 sampleCache sampleTopic 8000000000000 0
        outFailure .transport (by decide) (by decide) rfl).1
        (by decide) (by decide)).2.2⟩
  · have h := ((C2_fallback_window forumOne 7 sampleCache sampleTopic
        700000000000000 0 outFailure .transport (by decide) (by decide)
        rfl).2 (by decide)).1
    rw [h]
    decide

/-- C3: a `Forum.Topic` call on a never-successfully-fetched
identifier whose fetch fails returns the error and leaves the store
without an entry for the identifier (in fact exactly as before), so a
subsequent call reaches the fetch again. -/
theorem C3_no_stale_error (f : Forum) (id : Int) (now now2 : Nat)
    (out : FetchOutcome) (e : FetchError) (now' now2' : Nat) (out' : FetchOutcome)
    (habs : alookup f.cache id = none) (hnow : topicCacheTimeout ≤ now)
    (herr : runFetch out = .error e) :
    Forum.Topic f id now out now2 = ⟨f, none, some e, true⟩
    ∧ alookup (Forum.Topic f id now out now2).forum.cache id = none
    ∧ (topicCacheTimeout ≤ now' →
        (Forum.Topic (Forum.Topic f id now out now2).forum id now' out' now2').fetched
          = true) := by
  have hs : ¬ ((0:Nat) + topicCacheTimeout > now) := by omega
  have hmain := @Topic_fail_absent f id now now2 out e habs hs herr
  refine ⟨hmain, ?_, ?_⟩
  · rw [hmain]
    exact habs
  · intro hnow'
    rw [hmain]
    exact topic_fetched_of_absent habs hnow'

/-- Witness for C3: a failing miss on an empty store propagates the
error, stores nothing, and the next call fetches again. -/
theorem C3_no_stale_error_witness :
    Forum.Topic ⟨[]⟩ 1 4000000000000 outFailure 0
      = ⟨⟨[]⟩, none, some .transport, true⟩
    ∧ (Forum.Topic (Forum.Topic ⟨[]⟩ 1 4000000000000 outFailure 0).forum 1
        4000000000000 outFailure 0).fetched = true := by
  have h := C3_no_stale_error ⟨[]⟩ 1 4000000000000 0 outFailure .transport
    4000000000000 0 outFailure (by decide) (by decide) rfl
  exact ⟨h.1, h.2.2 (by decide)⟩

/-- C4 counterexample: the claim says the success path sets the
entry's timestamp to `now`, the time used for the freshness decision.
The source sets it with a second `time.Now()` call made after the
fetch completes (line 430), not with the `now` of line 357: with the
freshness decision made at time 4000000000000 and the fetch completing
at 4000000000005, the stored timestamp is 4000000000005. -/
theorem C4_counterexample :
    alookup (Forum.Topic ⟨[]⟩ 1 4000000000000 outSuccess 4000000000005).forum.cache 1
      = some ⟨4000000000005, some (sampleTopic.setPost samplePost)⟩
    ∧ (4000000000005 : Nat) ≠ 4000000000000 := by
  constructor
  · decide
  · decide

/-- C4 (amended): on a successful fetch the entry's record is replaced
by the fetched record and its timestamp is set to the time observed by
the second clock reading, taken when the fetch completes (in general
later than the `now` used for the freshness decision); the new record
is returned; and this is the only path of a `Topic` call that changes
an entry's content — a failing fetch leaves the entry unchanged or
removes it whole, and a fresh hit changes nothing. -/
theorem C4_success_path (f : Forum) (id : Int) (now now2 : Nat)
    (out : FetchOutcome) (t : Topic)
    (hstale : ((alookup f.cache id).getD ⟨0, none⟩).time + topicCacheTimeout ≤ now)
    (hok : runFetch out = .ok t) :
    Forum.Topic f id now out now2
      = ⟨⟨ainsert f.cache id ⟨now2, some t⟩⟩, some t, none, true⟩
    ∧ (∀ now' out' now2' e' c, alookup f.cache id = some c →
        runFetch out' = .error e' →
        alookup (Forum.Topic f id now' out' now2').forum.cache id = some c
        ∨ alookup (Forum.Topic f id now' out' now2').forum.cache id = none)
    ∧ (∀ now' out' now2' c, alookup f.cache id = some c →
        now' < c.time + topicCacheTimeout →
        (Forum.Topic f id now' out' now2').forum = f) := by
  refine ⟨?_, ?_, ?_⟩
  · cases halo : alookup f.cache id with
    | none =>
      have hs : ¬ ((0:Nat) + topicCacheTimeout > now) := by
        rw [halo] at hstale
        simpa using hstale
      exact Topic_success_absent halo hs hok
    | some c =>
      have hs : ¬ (c.time + topicCacheTimeout > now) := by
        rw [halo] at hstale
        simp only [Option.getD_some] at hstale
        omega
      exact Topic_success_present halo hs hok
  · intro now' out' now2' e' c hc herr'
    by_cases hfr : c.time + topicCacheTimeout > now'
    · left
      rw [Topic_fresh_present hc hfr]
      exact hc
    · by_cases hfb : c.topic.isSome ∧ c.time + topicCacheFallback > now'
      · left
        rw [@Topic_fallback_present f id c now' now2' out' e' hc hfr herr' hfb]
        exact hc
      · right
        rw [@Topic_evict_present f id c now' now2' out' e' hc hfr herr' hfb]
        exact alookup_aerase_self f.cache id
  · intro now' out' now2' c hc hfr
    rw [Topic_fresh_present hc hfr]

/-- Witness for the amended C4 at a concrete forum: a stale entry plus
a successful fetch yields exactly the replacement with the
post-completion timestamp. -/
theorem C4_success_path_witness :
    Forum.Topic forumOne 7 8000000000000 outSuccess 8000000000009
      = ⟨⟨ainsert forumOne.cache 7 ⟨8000000000009, some (sampleTopic.setPost samplePost)⟩⟩,
          some (sampleTopic.setPost samplePost), none, true⟩ :=
  (C4_success_path forumOne 7 8000000000000 8000000000009 outSuccess
    (sampleTopic.setPost samplePost) (by decide) rfl).1

/-- C5: `Forum.Refresh` on an identifier with no entry is a no-op;
on a cached identifier it removes the entry unconditionally, so the
next `Topic` call reaches the fetch even when the removed entry was
still within the freshness window. -/
theorem C5_refresh_invalidation (f : Forum) (id : Int) (now now2 : Nat)
    (out : FetchOutcome) :
    (alookup f.cache id = none → Forum.Refresh f id = f)
    ∧ alookup (Forum.Refresh f id).cache id = none
    ∧ (topicCacheTimeout ≤ now →
        (Forum.Topic (Forum.Refresh f id) id now out now2).fetched = true) := by
  refine ⟨?_, ?_, ?_⟩
  · intro habs
    show (⟨aerase f.cache id⟩ : Forum) = f
    rw [aerase_of_alookup_none _ _ habs]
  · exact alookup_aerase_self f.cache id
  · intro hnow
    exact topic_fetched_of_absent (alookup_aerase_self f.cache id) hnow

/-- Witness for C5: refreshing an uncached identifier changes nothing;
refreshing the cached identifier 7 makes the immediately following
call (still within the freshness window of the removed entry) fetch. -/
theorem C5_refresh_invalidation_witness :
    Forum.Refresh forumOne 3 = forumOne
    ∧ (Forum.Topic (Forum.Refresh forumOne 7) 7 4000000000005 outFailure 0).fetched
        = true := by
  constructor
  · exact (C5_refresh_invalidation forumOne 3 0 0 outFailure).1 (by decide)
  · exact (C5_refresh_invalidation forumOne 7 4000000000005 0 outFailure).2.2
      (by decide)

/-- C6: a `Topic` call whose fetch fails never changes an entry's
record or timestamp — the entry is kept exactly as it was or removed
whole — and the call succeeds exactly when the freshness window or the
fallback window around the single last-successful-fetch timestamp
`c.time` is still open. -/
theorem C6_failure_frame (f : Forum) (id : Int) (c : topicCache)
    (now now2 : Nat) (out : FetchOutcome) (e : FetchError)
    (hc : alookup f.cache id = some c) (herr : runFetch out = .error e) :
    (((Forum.Topic f id now out now2).forum = f
        ∧ alookup (Forum.Topic f id now out now2).forum.cache id = some c)
      ∨ (Forum.Topic f id now out now2).forum = ⟨aerase f.cache id⟩)
    ∧ ((Forum.Topic f id now out now2).err = none ↔
        (now < c.time + topicCacheTimeout
          ∨ (c.topic.isSome ∧ now < c.time + topicCacheFallback))) := by
  by_cases hfr : c.time + topicCacheTimeout > now
  · rw [Topic_fresh_present hc hfr]
    constructor
    · exact Or.inl ⟨rfl, hc⟩
    · simp [hfr]
  · by_cases hfb : c.topic.isSome ∧ c.time + topicCacheFallback > now
    · rw [@Topic_fallback_present f id c now now2 out e hc hfr herr hfb]
      constructor
      · exact Or.inl ⟨rfl, hc⟩
      · simp only [true_iff]
        exact Or.inr hfb
    · rw [@Topic_evict_present f id c now now2 out e hc hfr herr hfb]
      constructor
      · exact Or.inr rfl
      · constructor
        · intro hx
          exact absurd hx (by simp)
        · intro hx
          rcases hx with hx | hx
          · exact absurd hx (by omega)
          · exact absurd hx hfb

/-- Witness for C6: a failing fetch past the freshness window leaves
the concrete entry byte-for-byte in place and succeeds via fallback. -/
theorem C6_failure_frame_witness :
    ((Forum.Topic forumOne 7 8000000000000 outFailure 0).forum = forumOne
      ∧ alookup (Forum.Topic forumOne 7 8000000000000 outFailure 0).forum.cache 7
          = some sampleCache)
    ∧ (Forum.Topic forumOne 7 8000000000000 outFailure 0).err = none := by
  have h := C6_failure_frame forumOne 7 sampleCache 8000000000000 0 outFailure
    .transport (by decide) rfl
  refine ⟨?_, ?_⟩
  · rcases h.1 with h1 | h1
    · exact h1
    · exact absurd h1 (by decide)
  · exact h.2.mpr (Or.inr (by decide))

theorem WF_ainsert_topic {f : Forum} {id : Int} {tm : Nat} {t : Topic}
    (h : WF f) : WF ⟨ainsert f.cache id ⟨tm, some t⟩⟩ := by
  intro p hp
  rcases mem_ainsert hp with hp | hp
  · intro _
    rw [hp]
    rfl
  · exact h p hp

theorem WF_ainsert_empty {f : Forum} {id : Int} (h : WF f) :
    WF ⟨ainsert f.cache id ⟨0, none⟩⟩ := by
  intro p hp
  rcases mem_ainsert hp with hp | hp
  · intro hz
    rw [hp] at hz
    exact absurd rfl hz
  · exact h p hp

theorem WF_aerase {f : Forum} {id : Int} (h : WF f) :
    WF ⟨aerase f.cache id⟩ := by
  intro p hp
  exact h p (mem_aerase hp)

/-- C10: an entry whose timestamp is set holds a record — the empty
cache satisfies this, and `Topic`, `Refresh` and `Search` all preserve
it — and with a clock at least one freshness window past the zero
time, `Forum.Topic` never returns no record together with no error;
the fetch rejects empty upstream responses (missing topic or no posts)
before anything is stored. -/
theorem C10_record_timestamp_coupling :
    WF ⟨[]⟩
    ∧ (∀ f id now now2 out, WF f → WF (Forum.Topic f id now out now2).forum)
    ∧ (∀ f id, WF f → WF (Forum.Refresh f id))
    ∧ (∀ f ts now, WF f → WF (Forum.Search f ts now))
    ∧ (∀ f id now now2 out, WF f → topicCacheTimeout ≤ now →
        ¬ ((Forum.Topic f id now out now2).topic = none
            ∧ (Forum.Topic f id now out now2).err = none))
    ∧ (∀ posts, runFetch (.parsed 200 none posts) = .error .emptyPage)
    ∧ (∀ ot, runFetch (.parsed 200 ot []) = .error .emptyPage) := by
  refine ⟨?_, ?_, ?_, ?_, ?_, ?_, ?_⟩
  · intro p hp
    simp at hp
  · intro f id now now2 out hwf
    cases halo : alookup f.cache id with
    | none =>
      by_cases hfr : (0:Nat) + topicCacheTimeout > now
      · rw [Topic_fresh_absent halo hfr]
        exact WF_ainsert_empty hwf
      · cases hout : runFetch out with
        | ok t =>
          rw [Topic_success_absent halo hfr hout]
          exact WF_ainsert_topic hwf
        | error e =>
          rw [@Topic_fail_absent f id now now2 out e halo hfr hout]
          exact hwf
    | some c =>
      by_cases hfr : c.time + topicCacheTimeout > now
      · rw [Topic_fresh_present halo hfr]
        exact hwf
      · cases hout : runFetch out with
        | ok t =>
          rw [Topic_success_present halo hfr hout]
          exact WF_ainsert_topic hwf
        | error e =>
          by_cases hfb : c.topic.isSome ∧ c.time + topicCacheFallback > now
          · rw [@Topic_fallback_present f id c now now2 out e halo hfr hout hfb]
            exact hwf
          · rw [@Topic_evict_present f id c now now2 out e halo hfr hout hfb]
            exact WF_aerase hwf
  · intro f id hwf
    exact WF_aerase hwf
  · intro f ts now
    induction ts generalizing f with
    | nil => intro hwf; exact hwf
    | cons t ts ih =>
      intro hwf
      show WF (Forum.Search ⟨ainsert f.cache t.id ⟨now, some t⟩⟩ ts now)
      exact ih _ (WF_ainsert_topic hwf)
  · intro f id now now2 out hwf hnow
    cases halo : alookup f.cache id with
    | none =>
      have hfr : ¬ ((0:Nat) + topicCacheTimeout > now) := by omega
      cases hout : runFetch out with
      | ok t =>
        rw [Topic_success_absent halo hfr hout]
        rintro ⟨hx, -⟩
        exact Option.noConfusion hx
      | error e =>
        rw [@Topic_fail_absent f id now now2 out e halo hfr hout]
        rintro ⟨-, hx⟩
        exact Option.noConfusion hx
    | some c =>
      have hts := hwf _ (alookup_mem _ _ _ halo)
      by_cases hfr : c.time + topicCacheTimeout > now
      · have hz : c.time ≠ 0 := by
          intro hz
          rw [hz] at hfr
          omega
        rcases Option.isSome_iff_exists.mp (hts hz) with ⟨rec, hrec⟩
        rw [Topic_fresh_present halo hfr]
        rintro ⟨hx, -⟩
        rw [hrec] at hx
        exact Option.noConfusion hx
      · cases hout : runFetch out with
        | ok t =>
          rw [Topic_success_present halo hfr hout]
          rintro ⟨hx, -⟩
          exact Option.noConfusion hx
        | error e =>
          by_cases hfb : c.topic.isSome ∧ c.time + topicCacheFallback > now
          · rcases Option.isSome_iff_exists.mp hfb.1 with ⟨rec, hrec⟩
            rw [@Topic_fallback_present f id c now now2 out e halo hfr hout hfb]
            rintro ⟨hx, -⟩
            rw [hrec] at hx
            exact Option.noConfusion hx
          · rw [@Topic_evict_present f id c now now2 out e halo hfr hout hfb]
            rintro ⟨-, hx⟩
            exact Option.noConfusion hx
  · intro posts
    rfl
  · intro ot
    cases ot <;> rfl

/-- Witness for C10 at concrete states: the sample forum is
well-formed, stays so across a successful refresh, and a call on it at
a realistic time returns a record or an error. -/
theorem C10_record_timestamp_coupling_witness :
    WF (Forum.Topic forumOne 7 8000000000000 outSuccess 8000000000009).forum
    ∧ ¬ ((Forum.Topic forumOne 7 8000000000000 outFailure 0).topic = none
        ∧ (Forum.Topic forumOne 7 8000000000000 outFailure 0).err = none) := by
  constructor
  · exact C10_record_timestamp_coupling.2.1 forumOne 7 8000000000000 8000000000009
      outSuccess (by decide)
  · exact C10_record_timestamp_coupling.2.2.2.2.1 forumOne 7 8000000000000 0
      outFailure (by decide) (by decide)

/-! ### List utilities for the interleaved model -/

theorem lget_lt {α : Type} {l : List α} {i : Nat} {a : α}
    (h : l.get? i = some a) : i < l.length := by
  by_contra hc
  rw [List.get?_eq_none.mpr (by omega)] at h
  exact Option.noConfusion h

theorem lget_mem {α : Type} {l : List α} {i : Nat} {a : α}
    (h : l.get? i = some a) : a ∈ l :=
  List.get?_mem h

theorem mem_lget {α : Type} {l : List α} {a : α} (h : a ∈ l) :
    ∃ i, l.get? i = some a :=
  List.get?_of_mem h

theorem lget_set_self {α : Type} (l : List α) (i : Nat) (a : α)
    (h : i < l.length) : (l.set i a).get? i = some a := by
  simp [List.get?_eq_getElem?, List.getElem?_set_eq_of_lt _ h]

theorem lget_set_ne {α : Type} (l : List α) (i j : Nat) (a : α)
    (h : i ≠ j) : (l.set i a).get? j = l.get? j := by
  simp [List.get?_eq_getElem?, List.getElem?_set_ne h]

theorem getD_set_self {α : Type} (l : List α) (i : Nat) (a d : α)
    (h : i < l.length) : (l.set i a).getD i d = a := by
  simp [List.getD, List.getElem?_set_eq_of_lt _ h]

theorem getD_set_ne {α : Type} (l : List α) (i j : Nat) (a d : α)
    (h : i ≠ j) : (l.set i a).getD j d = l.getD j d := by
  simp [List.getD, List.getElem?_set_ne h]

theorem getD_append_lt {α : Type} (l l2 : List α) (i : Nat) (d : α)
    (h : i < l.length) : (l ++ l2).getD i d = l.getD i d := by
  simp [List.getD, List.getElem?_append_left h]

theorem getD_append_mem {α : Type} (l l2 : List α) (i : Nat) (d : α)
    (hge : l.length ≤ i) (hnd : (l ++ l2).getD i d ≠ d) :
    (l ++ l2).getD i d ∈ l2 := by
  by_cases hlt : i < (l ++ l2).length
  · have : (l ++ l2).getD i d = (l ++ l2)[i] := by
      simp [List.getD, List.getElem?_eq_getElem hlt]
    rw [this]
    rw [List.getElem_append_right hge]
    exact List.getElem_mem _
  · rw [List.getD_eq_default] at hnd
    · exact absurd rfl hnd
    · omega

theorem getD_append_len {α : Type} (l : List α) (x d : α) :
    (l ++ [x]).getD l.length d = x := by
  simp [List.getD, List.getElem?_append_right (Nat.le_refl _)]

theorem alookup_cons_self {α : Type} (l : List (Int × α)) (id : Int) (v : α) :
    alookup ((id, v) :: l) id = some v := by
  simp [alookup]

theorem alookup_none_not_key {α : Type} {l : List (Int × α)} {id : Int}
    (h : alookup l id = none) : id ∉ l.map Prod.fst := by
  induction l with
  | nil => simp
  | cons p rest ih =>
    simp only [alookup] at h
    by_cases hp : p.1 = id
    · rw [if_pos hp] at h
      exact Option.noConfusion h
    · rw [if_neg hp] at h
      simp only [List.map_cons, List.mem_cons]
      rintro (hx | hx)
      · exact hp hx.symm
      · exact ih h hx

theorem keys_aerase_sublist {α : Type} (l : List (Int × α)) (id : Int) :
    ((aerase l id).map Prod.fst).Sublist (l.map Prod.fst) := by
  induction l with
  | nil => simp [aerase]
  | cons p rest ih =>
    by_cases hp : p.1 = id
    · rw [show aerase (p :: rest) id = aerase rest id from by simp [aerase, hp]]
      simp only [List.map_cons]
      exact ih.cons _
    · rw [show aerase (p :: rest) id = p :: aerase rest id from by simp [aerase, hp]]
      simp only [List.map_cons]
      exact ih.cons₂ _

theorem nodup_keys_aerase {α : Type} {l : List (Int × α)} {id : Int}
    (h : (l.map Prod.fst).Nodup) : ((aerase l id).map Prod.fst).Nodup :=
  h.sublist (keys_aerase_sublist l id)

theorem nodup_keys_ainsert {α : Type} {l : List (Int × α)} {id : Int} {v : α}
    (h : (l.map Prod.fst).Nodup) : ((ainsert l id v).map Prod.fst).Nodup := by
  simp only [ainsert, List.map_cons]
  exact List.nodup_cons.mpr
    ⟨alookup_none_not_key (alookup_aerase_self l id), nodup_keys_aerase h⟩

/-! ### Heap-update lemmas -/

theorem length_setOwner (h : List EntryObj) (r : Nat) (o : Option Nat) :
    (setOwner h r o).length = h.length := by
  simp [setOwner]

theorem length_setEnt (h : List EntryObj) (r : Nat) (tm : Nat) (tp : Option Topic) :
    (setEnt h r tm tp).length = h.length := by
  simp [setEnt]

theorem getD_setOwner_self (h : List EntryObj) (r : Nat) (o : Option Nat)
    (hr : r < h.length) :
    (setOwner h r o).getD r emptyObj = { h.getD r emptyObj with owner := o } := by
  unfold setOwner
  rw [getD_set_self _ _ _ _ hr]

theorem getD_setOwner_ne (h : List EntryObj) (r r' : Nat) (o : Option Nat)
    (hne : r ≠ r') :
    (setOwner h r o).getD r' emptyObj = h.getD r' emptyObj := by
  unfold setOwner
  rw [getD_set_ne _ _ _ _ _ hne]

theorem getD_setEnt_self (h : List EntryObj) (r : Nat) (tm : Nat)
    (tp : Option Topic) (hr : r < h.length) :
    (setEnt h r tm tp).getD r emptyObj
      = { h.getD r emptyObj with time := tm, topic := tp } := by
  unfold setEnt
  rw [getD_set_self _ _ _ _ hr]

theorem getD_setEnt_ne (h : List EntryObj) (r r' : Nat) (tm : Nat)
    (tp : Option Topic) (hne : r ≠ r') :
    (setEnt h r tm tp).getD r' emptyObj = h.getD r' emptyObj := by
  unfold setEnt
  rw [getD_set_ne _ _ _ _ _ hne]

theorem forId_setOwner (h : List EntryObj) (r r' : Nat) (o : Option Nat) :
    ((setOwner h r o).getD r' emptyObj).forId = (h.getD r' emptyObj).forId := by
  by_cases hr : r < h.length
  · by_cases hrr : r = r'
    · subst hrr
      rw [getD_setOwner_self _ _ _ hr]
  
    · rw [getD_setOwner_ne _ _ _ _ hrr]
  · have : setOwner h r o = h := by
      unfold setOwner
      exact List.set_eq_of_length_le (by omega)
    rw [this]

theorem forId_setEnt (h : List EntryObj) (r r' : Nat) (tm : Nat)
    (tp : Option Topic) :
    ((setEnt h r tm tp).getD r' emptyObj).forId = (h.getD r' emptyObj).forId := by
  by_cases hr : r < h.length
  · by_cases hrr : r = r'
    · subst hrr
      rw [getD_setEnt_self _ _ _ _ hr]
    · rw [getD_setEnt_ne _ _ _ _ _ hrr]
  · have : setEnt h r tm tp = h := by
      unfold setEnt
      exact List.set_eq_of_length_le (by omega)
    rw [this]

theorem owner_setEnt (h : List EntryObj) (r r' : Nat) (tm : Nat)
    (tp : Option Topic) :
    ((setEnt h r tm tp).getD r' emptyObj).owner = (h.getD r' emptyObj).owner := by
  by_cases hr : r < h.length
  · by_cases hrr : r = r'
    · subst hrr
      rw [getD_setEnt_self _ _ _ _ hr]
    · rw [getD_setEnt_ne _ _ _ _ _ hrr]
  · have : setEnt h r tm tp = h := by
      unfold setEnt
      exact List.set_eq_of_length_le (by omega)
    rw [this]

theorem searchIns_spec (ts : List Topic) :
    ∀ (h : List EntryObj) (m : List (Int × Nat)) (now : Nat),
      (m.map Prod.fst).Nodup →
      (∀ p ∈ m, p.2 < h.length ∧ (h.getD p.2 emptyObj).forId = p.1) →
      ∃ ext, (searchIns ts h m now).1 = h ++ ext
        ∧ (∀ o ∈ ext, o.owner = none)
        ∧ ((searchIns ts h m now).2.map Prod.fst).Nodup
        ∧ (∀ p ∈ (searchIns ts h m now).2,
            p.2 < (searchIns ts h m now).1.length
            ∧ ((searchIns ts h m now).1.getD p.2 emptyObj).forId = p.1) := by
  induction ts with
  | nil =>
    intro h m now hnd hb
    exact ⟨[], by simp [searchIns], by simp, hnd, hb⟩
  | cons t ts ih =>
    intro h m now hnd hb
    have hnd' : ((ainsert m t.id h.length).map Prod.fst).Nodup :=
      nodup_keys_ainsert hnd
    have hb' : ∀ p ∈ ainsert m t.id h.length,
        p.2 < (h ++ [(⟨t.id, now, some t, none⟩ : EntryObj)]).length
        ∧ ((h ++ [(⟨t.id, now, some t, none⟩ : EntryObj)]).getD p.2 emptyObj).forId = p.1 := by
      intro p hp
      rcases mem_ainsert hp with hp | hp
      · subst hp
        constructor
        · simp
        · rw [getD_append_len]
      · rcases hb p hp with ⟨hlt, hfi⟩
        constructor
        · simp
          omega
        · rw [getD_append_lt _ _ _ _ hlt]
          exact hfi
    rcases ih (h ++ [(⟨t.id, now, some t, none⟩ : EntryObj)]) (ainsert m t.id h.length) now
      hnd' hb' with ⟨ext, he, ho, hn2, hb2⟩
    refine ⟨(⟨t.id, now, some t, none⟩ : EntryObj) :: ext, ?_, ?_, hn2, hb2⟩
    · rw [show searchIns (t :: ts) h m now
        = searchIns ts (h ++ [(⟨t.id, now, some t, none⟩ : EntryObj)]) (ainsert m t.id h.length) now
        from rfl]
      rw [he]
      simp
    · intro o hoe
      rcases List.mem_cons.mp hoe with hoe | hoe
      · rw [hoe]
      · exact ho o hoe

/-! ### Preservation of the structural invariant, case by case -/

theorem sysInv_setPc (s : Sys) (tid : Nat) (th : Thread) (pc' : TPC)
    (h : SysInv s) (hth : s.threads.get? tid = some th)
    (hrefs : ∀ r, pcRef pc' = some r → pcRef th.pc = some r)
    (hholds1 : ∀ r, pcHolds pc' = some r → pcHolds th.pc = some r)
    (hholds2 : ∀ r, pcHolds th.pc = some r → pcHolds pc' = some r) :
    SysInv { s with threads := s.threads.set tid ⟨th.role, pc'⟩ } := by
  have hlt : tid < s.threads.length := lget_lt hth
  refine ⟨h.mapNodup, h.mapBound, ?_, ?_, ?_⟩
  · intro tid' th' r hget href
    by_cases he : tid' = tid
    · subst he
      rw [lget_set_self _ _ _ hlt] at hget
      injection hget with hget
      subst hget
      rcases h.thrRef tid' th r hth (hrefs r href) with ⟨hb, hfi⟩
      exact ⟨hb, hfi⟩
    · rw [lget_set_ne _ _ _ _ (fun hx => he hx.symm)] at hget
      exact h.thrRef tid' th' r hget href
  · intro tid' th' r hget hhold
    by_cases he : tid' = tid
    · subst he
      rw [lget_set_self _ _ _ hlt] at hget
      injection hget with hget
      subst hget
      exact h.holdOwner tid' th r hth (hholds1 r hhold)
    · rw [lget_set_ne _ _ _ _ (fun hx => he hx.symm)] at hget
      exact h.holdOwner tid' th' r hget hhold
  · intro r tid' hr howner
    rcases h.ownerHold r tid' hr howner with ⟨th0, hg0, hh0⟩
    by_cases he : tid' = tid
    · subst he
      rw [hth] at hg0
      injection hg0 with hg0
      subst hg0
      exact ⟨⟨th.role, pc'⟩, lget_set_self _ _ _ hlt, hholds2 r hh0⟩
    · exact ⟨th0, by rw [lget_set_ne _ _ _ _ (fun hx => he hx.symm)]; exact hg0, hh0⟩

theorem sysInv_lookup_existing (s : Sys) (tid : Nat) (th : Thread)
    (id : Int) (now : Nat) (out : FetchOutcome) (now2 : Nat) (r0 : Nat)
    (h : SysInv s) (hth : s.threads.get? tid = some th)
    (hpc : th.pc = .start) (hrole : th.role = .topicCall id now out now2)
    (hmap : alookup s.map id = some r0) :
    SysInv { s with threads := s.threads.set tid ⟨th.role, .haveRef r0⟩ } := by
  have hlt : tid < s.threads.length := lget_lt hth
  have hmem : (id, r0) ∈ s.map := alookup_mem _ _ _ hmap
  rcases h.mapBound _ hmem with ⟨hb0, hf0⟩
  refine ⟨h.mapNodup, h.mapBound, ?_, ?_, ?_⟩
  · intro tid' th' r hget href
    by_cases he : tid' = tid
    · subst he
      rw [lget_set_self _ _ _ hlt] at hget
      injection hget with hget
      subst hget
      simp only [pcRef] at href
      injection href with href
      subst href
      refine ⟨hb0, ?_⟩
      intro id' now' out' now2' hrole'
      rw [hrole] at hrole'
      injection hrole' with h1 h2 h3 h4
      rw [← h1]
      exact hf0
    · rw [lget_set_ne _ _ _ _ (fun hx => he hx.symm)] at hget
      exact h.thrRef tid' th' r hget href
  · intro tid' th' r hget hhold
    by_cases he : tid' = tid
    · subst he
      rw [lget_set_self _ _ _ hlt] at hget
      injection hget with hget
      subst hget
      simp only [pcHolds] at hhold
      exact Option.noConfusion hhold
    · rw [lget_set_ne _ _ _ _ (fun hx => he hx.symm)] at hget
      exact h.holdOwner tid' th' r hget hhold
  · intro r tid' hr howner
    rcases h.ownerHold r tid' hr howner with ⟨th0, hg0, hh0⟩
    by_cases he : tid' = tid
    · subst he
      rw [hth] at hg0
      injection hg0 with hg0
      subst hg0
      rw [hpc] at hh0
      simp only [pcHolds] at hh0
      exact Option.noConfusion hh0
    · exact ⟨th0, by rw [lget_set_ne _ _ _ _ (fun hx => he hx.symm)]; exact hg0, hh0⟩

theorem sysInv_lookup_create (s : Sys) (tid : Nat) (th : Thread)
    (id : Int) (now : Nat) (out : FetchOutcome) (now2 : Nat)
    (h : SysInv s) (hth : s.threads.get? tid = some th)
    (hpc : th.pc = .start) (hrole : th.role = .topicCall id now out now2)
    (hmap : alookup s.map id = none) :
    SysInv { s with
      heap := s.heap ++ [(⟨id, 0, none, none⟩ : EntryObj)],
      map := (id, s.heap.length) :: s.map,
      threads := s.threads.set tid ⟨th.role, .haveRef s.heap.length⟩ } := by
  have hlt : tid < s.threads.length := lget_lt hth
  have hlen : (s.heap ++ [(⟨id, 0, none, none⟩ : EntryObj)]).length
      = s.heap.length + 1 := by simp
  refine ⟨?_, ?_, ?_, ?_, ?_⟩
  · simp only [List.map_cons]
    exact List.nodup_cons.mpr ⟨alookup_none_not_key hmap, h.mapNodup⟩
  · intro p hp
    rcases List.mem_cons.mp hp with hp | hp
    · subst hp
      constructor
      · simp only [hlen]
        omega
      · show ((s.heap ++ _).getD s.heap.length emptyObj).forId = _
        rw [getD_append_len]
    · rcases h.mapBound p hp with ⟨hb, hf⟩
      constructor
      · simp only [hlen]
        omega
      · show ((s.heap ++ _).getD p.2 emptyObj).forId = _
        rw [getD_append_lt _ _ _ _ hb]
        exact hf
  · intro tid' th' r hget href
    by_cases he : tid' = tid
    · subst he
      rw [lget_set_self _ _ _ hlt] at hget
      injection hget with hget
      subst hget
      simp only [pcRef] at href
      injection href with href
      subst href
      constructor
      · simp only [hlen]
        omega
      · intro id' now' out' now2' hrole'
        rw [hrole] at hrole'
        injection hrole' with h1 h2 h3 h4
        rw [← h1]
        show ((s.heap ++ _).getD s.heap.length emptyObj).forId = _
        rw [getD_append_len]
    · rw [lget_set_ne _ _ _ _ (fun hx => he hx.symm)] at hget
      rcases h.thrRef tid' th' r hget href with ⟨hb, hf⟩
      constructor
      · simp only [hlen]
        omega
      · intro id' now' out' now2' hrole'
        show ((s.heap ++ _).getD r emptyObj).forId = _
        rw [getD_append_lt _ _ _ _ hb]
        exact hf id' now' out' now2' hrole'
  · intro tid' th' r hget hhold
    by_cases he : tid' = tid
    · subst he
      rw [lget_set_self _ _ _ hlt] at hget
      injection hget with hget
      subst hget
      simp only [pcHolds] at hhold
      exact Option.noConfusion hhold
    · rw [lget_set_ne _ _ _ _ (fun hx => he hx.symm)] at hget
      have hold := h.holdOwner tid' th' r hget hhold
      have hb : r < s.heap.length :=
        (h.thrRef tid' th' r hget (by
          cases hpc' : th'.pc <;> simp [pcHolds, hpc'] at hhold <;>
            simp [pcRef, hpc', ← hhold])).1
      show ((s.heap ++ _).getD r emptyObj).owner = _
      rw [getD_append_lt _ _ _ _ hb]
      exact hold
  · intro r tid' hr howner
    by_cases hb : r < s.heap.length
    · rw [show heapGet { s with
          heap := s.heap ++ [(⟨id, 0, none, none⟩ : EntryObj)],
          map := (id, s.heap.length) :: s.map,
          threads := s.threads.set tid ⟨th.role, .haveRef s.heap.length⟩ } r
          = (s.heap ++ [(⟨id, 0, none, none⟩ : EntryObj)]).getD r emptyObj from rfl,
        getD_append_lt _ _ _ _ hb] at howner
      rcases h.ownerHold r tid' hb howner with ⟨th0, hg0, hh0⟩
      by_cases he : tid' = tid
      · subst he
        rw [hth] at hg0
        injection hg0 with hg0
        subst hg0
        rw [hpc] at hh0
        simp only [pcHolds] at hh0
        exact Option.noConfusion hh0
      · exact ⟨th0, by rw [lget_set_ne _ _ _ _ (fun hx => he hx.symm)]; exact hg0, hh0⟩
    · have hr' : r = s.heap.length := by
        simp only [hlen] at hr
        omega
      subst hr'
      rw [show heapGet { s with
          heap := s.heap ++ [(⟨id, 0, none, none⟩ : EntryObj)],
          map := (id, s.heap.length) :: s.map,
          threads := s.threads.set tid ⟨th.role, .haveRef s.heap.length⟩ } s.heap.length
          = (s.heap ++ [(⟨id, 0, none, none⟩ : EntryObj)]).getD s.heap.length emptyObj
          from rfl, getD_append_len] at howner
      exact Option.noConfusion howner

theorem pcRef_of_pcHolds {pc : TPC} {r : Nat} (h : pcHolds pc = some r) :
    pcRef pc = some r := by
  cases pc <;> simp [pcHolds] at h <;> simp [pcRef, h]

theorem sysInv_acquire (s : Sys) (tid : Nat) (th : Thread) (r : Nat)
    (h : SysInv s) (hth : s.threads.get? tid = some th)
    (hpc : th.pc = .haveRef r) (hown : (heapGet s r).owner = none) :
    SysInv { s with
      heap := setOwner s.heap r (some tid),
      threads := s.threads.set tid ⟨th.role, .fetching r⟩ } := by
  have hlt : tid < s.threads.length := lget_lt hth
  have hb : r < s.heap.length :=
    (h.thrRef tid th r hth (by rw [hpc]; rfl)).1
  have hlen : (setOwner s.heap r (some tid)).length = s.heap.length :=
    length_setOwner _ _ _
  refine ⟨h.mapNodup, ?_, ?_, ?_, ?_⟩
  · intro p hp
    rcases h.mapBound p hp with ⟨hpb, hpf⟩
    simp only [heapGet] at hpf ⊢
    rw [hlen, forId_setOwner]
    exact ⟨hpb, hpf⟩
  · intro tid2 th2 r2 hget href
    simp only [heapGet] at h ⊢
    rw [hlen, forId_setOwner]
    by_cases he : tid2 = tid
    · rw [he, lget_set_self _ _ _ hlt] at hget
      injection hget with hget
      rw [← hget] at href
      simp only [pcRef] at href
      injection href with href
      rw [← href]
      constructor
      · exact hb
      · intro id' now' out' now2' hrole'
        rw [← hget] at hrole'
        simp only at hrole'
        exact (h.thrRef tid th r hth (by rw [hpc]; rfl)).2 id' now' out' now2' hrole'
    · rw [lget_set_ne _ _ _ _ (fun hx => he hx.symm)] at hget
      exact h.thrRef tid2 th2 r2 hget href
  · intro tid2 th2 r2 hget hhold
    simp only [heapGet] at h ⊢
    by_cases he : tid2 = tid
    · rw [he, lget_set_self _ _ _ hlt] at hget
      injection hget with hget
      rw [← hget] at hhold
      simp only [pcHolds] at hhold
      injection hhold with hhold
      rw [← hhold, he, getD_setOwner_self _ _ _ hb]
    · rw [lget_set_ne _ _ _ _ (fun hx => he hx.symm)] at hget
      have hold := h.holdOwner tid2 th2 r2 hget hhold
      simp only [heapGet] at hold
      have hne : r ≠ r2 := by
        intro hx
        rw [hx] at hown
        simp only [heapGet] at hown
        rw [hown] at hold
        exact Option.noConfusion hold
      rw [getD_setOwner_ne _ _ _ _ hne]
      exact hold
  · intro r2 tid2 hr2 howner
    simp only [heapGet] at howner
    simp only [hlen] at hr2
    by_cases hrr : r2 = r
    · rw [hrr, getD_setOwner_self _ _ _ hb] at howner
      simp only at howner
      injection howner with howner
      refine ⟨⟨th.role, .fetching r⟩, ?_, ?_⟩
      · rw [← howner, lget_set_self _ _ _ hlt]
      · rw [hrr]
        rfl
    · rw [getD_setOwner_ne _ _ _ _ (fun hx => hrr hx.symm)] at howner
      have hown2 : (heapGet s r2).owner = some tid2 := howner
      rcases h.ownerHold r2 tid2 hr2 hown2 with ⟨th0, hg0, hh0⟩
      by_cases he : tid2 = tid
      · rw [he, hth] at hg0
        injection hg0 with hg0
        rw [← hg0, hpc] at hh0
        simp only [pcHolds] at hh0
        exact Option.noConfusion hh0
      · exact ⟨th0, by rw [lget_set_ne _ _ _ _ (fun hx => he hx.symm)]; exact hg0, hh0⟩

theorem sysInv_release_done (s : Sys) (tid : Nat) (th : Thread) (r : Nat)
    (h0 : List EntryObj) (x : Option Topic) (y : Option FetchError)
    (h : SysInv s) (hth : s.threads.get? tid = some th)
    (hhold : pcHolds th.pc = some r)
    (hlen0 : h0.length = s.heap.length)
    (hforId : ∀ r', (h0.getD r' emptyObj).forId = (s.heap.getD r' emptyObj).forId)
    (howner0 : ∀ r', (h0.getD r' emptyObj).owner = (s.heap.getD r' emptyObj).owner) :
    SysInv { s with
      heap := setOwner h0 r none,
      threads := s.threads.set tid ⟨th.role, .done x y⟩ } := by
  have hlt : tid < s.threads.length := lget_lt hth
  have hb : r < s.heap.length :=
    (h.thrRef tid th r hth (pcRef_of_pcHolds hhold)).1
  have hb0 : r < h0.length := by omega
  have hownr : (heapGet s r).owner = some tid := h.holdOwner tid th r hth hhold
  have hlen : (setOwner h0 r none).length = s.heap.length := by
    rw [length_setOwner]
    exact hlen0
  refine ⟨h.mapNodup, ?_, ?_, ?_, ?_⟩
  · intro p hp
    rcases h.mapBound p hp with ⟨hpb, hpf⟩
    simp only [heapGet] at hpf ⊢
    rw [hlen, forId_setOwner, hforId]
    exact ⟨hpb, hpf⟩
  · intro tid2 th2 r2 hget href
    simp only [heapGet] at h ⊢
    rw [hlen, forId_setOwner, hforId]
    by_cases he : tid2 = tid
    · rw [he, lget_set_self _ _ _ hlt] at hget
      injection hget with hget
      rw [← hget] at href
      simp only [pcRef] at href
      exact Option.noConfusion href
    · rw [lget_set_ne _ _ _ _ (fun hx => he hx.symm)] at hget
      exact h.thrRef tid2 th2 r2 hget href
  · intro tid2 th2 r2 hget hhold2
    simp only [heapGet] at h ⊢
    by_cases he : tid2 = tid
    · rw [he, lget_set_self _ _ _ hlt] at hget
      injection hget with hget
      rw [← hget] at hhold2
      simp only [pcHolds] at hhold2
      exact Option.noConfusion hhold2
    · rw [lget_set_ne _ _ _ _ (fun hx => he hx.symm)] at hget
      have hold := h.holdOwner tid2 th2 r2 hget hhold2
      simp only [heapGet] at hold
      have hne : r ≠ r2 := by
        intro hx
        rw [hx] at hownr
        simp only [heapGet] at hownr
        rw [hownr] at hold
        injection hold with hold
        exact he hold.symm
      rw [getD_setOwner_ne _ _ _ _ hne, howner0]
      exact hold
  · intro r2 tid2 hr2 howner
    simp only [heapGet] at howner
    simp only [hlen] at hr2
    by_cases hrr : r2 = r
    · rw [hrr, getD_setOwner_self _ _ _ hb0] at howner
      simp only at howner
      exact Option.noConfusion howner
    · rw [getD_setOwner_ne _ _ _ _ (fun hx => hrr hx.symm), howner0] at howner
      have hown2 : (heapGet s r2).owner = some tid2 := howner
      rcases h.ownerHold r2 tid2 hr2 hown2 with ⟨th0, hg0, hh0⟩
      by_cases he : tid2 = tid
      · rw [he, hth] at hg0
        injection hg0 with hg0
        rw [← hg0] at hh0
        rw [hhold] at hh0
        injection hh0 with hh0
        exact absurd hh0.symm hrr
      · exact ⟨th0, by rw [lget_set_ne _ _ _ _ (fun hx => he hx.symm)]; exact hg0, hh0⟩

theorem sysInv_mapErase (s : Sys) (id : Int) (h : SysInv s) :
    SysInv { s with map := aerase s.map id } := by
  refine ⟨?_, ?_, h.thrRef, h.holdOwner, h.ownerHold⟩
  · exact nodup_keys_aerase h.mapNodup
  · intro p hp
    exact h.mapBound p (mem_aerase hp)

theorem sysInv_search (s : Sys) (tid : Nat) (th : Thread)
    (ts : List Topic) (now : Nat)
    (h : SysInv s) (hth : s.threads.get? tid = some th) (hpc : th.pc = .start) :
    SysInv { s with
      heap := (searchIns ts s.heap s.map now).1,
      map := (searchIns ts s.heap s.map now).2,
      threads := s.threads.set tid ⟨th.role, .done none none⟩ } := by
  have hlt : tid < s.threads.length := lget_lt hth
  rcases searchIns_spec ts s.heap s.map now h.mapNodup
    (fun p hp => h.mapBound p hp) with ⟨ext, hheap, hext, hnd2, hb2⟩
  have hlenge : s.heap.length ≤ (searchIns ts s.heap s.map now).1.length := by
    rw [hheap]
    simp
  refine ⟨hnd2, ?_, ?_, ?_, ?_⟩
  · intro p hp
    exact hb2 p hp
  · intro tid2 th2 r2 hget href
    simp only [heapGet] at h ⊢
    by_cases he : tid2 = tid
    · rw [he, lget_set_self _ _ _ hlt] at hget
      injection hget with hget
      rw [← hget] at href
      simp only [pcRef] at href
      exact Option.noConfusion href
    · rw [lget_set_ne _ _ _ _ (fun hx => he hx.symm)] at hget
      rcases h.thrRef tid2 th2 r2 hget href with ⟨hrb, hrf⟩
      constructor
      · omega
      · rw [hheap, getD_append_lt _ _ _ _ hrb]
        exact hrf
  · intro tid2 th2 r2 hget hhold2
    simp only [heapGet] at h ⊢
    by_cases he : tid2 = tid
    · rw [he, lget_set_self _ _ _ hlt] at hget
      injection hget with hget
      rw [← hget] at hhold2
      simp only [pcHolds] at hhold2
      exact Option.noConfusion hhold2
    · rw [lget_set_ne _ _ _ _ (fun hx => he hx.symm)] at hget
      have hold := h.holdOwner tid2 th2 r2 hget hhold2
      simp only [heapGet] at hold
      have hrb : r2 < s.heap.length :=
        (h.thrRef tid2 th2 r2 hget (pcRef_of_pcHolds hhold2)).1
      rw [hheap, getD_append_lt _ _ _ _ hrb]
      exact hold
  · intro r2 tid2 hr2 howner
    simp only [heapGet] at howner
    by_cases hrb : r2 < s.heap.length
    · rw [hheap, getD_append_lt _ _ _ _ hrb] at howner
      have hown2 : (heapGet s r2).owner = some tid2 := howner
      rcases h.ownerHold r2 tid2 hrb hown2 with ⟨th0, hg0, hh0⟩
      by_cases he : tid2 = tid
      · rw [he, hth] at hg0
        injection hg0 with hg0
        rw [← hg0, hpc] at hh0
        simp only [pcHolds] at hh0
        exact Option.noConfusion hh0
      · exact ⟨th0, by rw [lget_set_ne _ _ _ _ (fun hx => he hx.symm)]; exact hg0, hh0⟩
    · exfalso
      by_cases hobj : (searchIns ts s.heap s.map now).1.getD r2 emptyObj = emptyObj
      · rw [hobj] at howner
        exact Option.noConfusion howner
      · rw [hheap] at hobj howner
        have hmem := getD_append_mem s.heap ext r2 emptyObj (by omega) hobj
        rw [hext _ hmem] at howner
        exact Option.noConfusion howner

theorem sysInv_fetchCount (s : Sys) (c : Nat) (h : SysInv s) :
    SysInv { s with fetchCount := c } :=
  ⟨h.mapNodup, h.mapBound, h.thrRef, h.holdOwner, h.ownerHold⟩

theorem sysInv_step (s : Sys) (tid : Nat) (h : SysInv s) :
    SysInv (step s tid) := by
  unfold step
  cases hth : s.threads.get? tid with
  | none => exact h
  | some th =>
    obtain ⟨ro, pc⟩ := th
    cases ro with
    | topicCall id now out now2 =>
      cases pc with
      | start =>
        simp only [stepThread]
        cases hm : alookup s.map id with
        | some r0 =>
          exact sysInv_lookup_existing s tid ⟨.topicCall id now out now2, .start⟩
            id now out now2 r0 h hth rfl rfl hm
        | none =>
          exact sysInv_lookup_create s tid ⟨.topicCall id now out now2, .start⟩
            id now out now2 h hth rfl rfl hm
      | haveRef r =>
        simp only [stepThread]
        cases howner : (heapGet s r).owner with
        | some o => exact h
        | none =>
          by_cases hfr : (heapGet s r).time + topicCacheTimeout > now
          · rw [if_pos hfr]
            exact sysInv_setPc s tid ⟨.topicCall id now out now2, .haveRef r⟩
              (.done (heapGet s r).topic none) h hth
              (fun r' hr' => Option.noConfusion hr')
              (fun r' hr' => Option.noConfusion hr')
              (fun r' hr' => Option.noConfusion hr')
          · rw [if_neg hfr]
            exact sysInv_acquire s tid ⟨.topicCall id now out now2, .haveRef r⟩
              r h hth rfl howner
      | fetching r =>
        simp only [stepThread]
        exact sysInv_setPc { s with fetchCount := s.fetchCount + 1 } tid
          ⟨.topicCall id now out now2, .fetching r⟩ (.fetched r)
          (sysInv_fetchCount s _ h) hth
          (fun r' hr' => hr') (fun r' hr' => hr') (fun r' hr' => hr')
      | fetched r =>
        simp only [stepThread]
        cases hout : runFetch out with
        | ok t =>
          exact sysInv_release_done s tid ⟨.topicCall id now out now2, .fetched r⟩
            r (setEnt s.heap r now2 (some t)) (some t) none h hth rfl
            (length_setEnt _ _ _ _)
            (fun r' => forId_setEnt _ _ _ _ _)
            (fun r' => owner_setEnt _ _ _ _ _)
        | error e =>
          by_cases hfb : (heapGet s r).topic.isSome
              ∧ (heapGet s r).time + topicCacheFallback > now
          · rw [if_pos hfb]
            exact sysInv_release_done s tid ⟨.topicCall id now out now2, .fetched r⟩
              r s.heap (heapGet s r).topic none h hth rfl rfl
              (fun r' => rfl) (fun r' => rfl)
          · rw [if_neg hfb]
            exact sysInv_setPc s tid ⟨.topicCall id now out now2, .fetched r⟩
              (.evicting r) h hth
              (fun r' hr' => hr') (fun r' hr' => hr') (fun r' hr' => hr')
      | evicting r =>
        simp only [stepThread]
        cases hout : runFetch out with
        | ok t => exact h
        | error e =>
          exact sysInv_release_done { s with map := aerase s.map id } tid
            ⟨.topicCall id now out now2, .evicting r⟩ r s.heap none (some e)
            (sysInv_mapErase s id h) hth rfl rfl (fun r' => rfl) (fun r' => rfl)
      | done x y =>
        simp only [stepThread]
        exact h
    | refreshCall id =>
      cases pc with
      | start =>
        simp only [stepThread]
        exact sysInv_setPc { s with map := aerase s.map id } tid
          ⟨.refreshCall id, .start⟩ (.done none none)
          (sysInv_mapErase s id h) hth
          (fun r' hr' => Option.noConfusion hr')
          (fun r' hr' => Option.noConfusion hr')
          (fun r' hr' => Option.noConfusion hr')
      | haveRef r => simp only [stepThread]; exact h
      | fetching r => simp only [stepThread]; exact h
      | fetched r => simp only [stepThread]; exact h
      | evicting r => simp only [stepThread]; exact h
      | done x y => simp only [stepThread]; exact h
    | searchCall ts nw =>
      cases pc with
      | start =>
        simp only [stepThread]
        exact sysInv_search s tid ⟨.searchCall ts nw, .start⟩ ts nw h hth rfl
      | haveRef r => simp only [stepThread]; exact h
      | fetching r => simp only [stepThread]; exact h
      | fetched r => simp only [stepThread]; exact h
      | evicting r => simp only [stepThread]; exact h
      | done x y => simp only [stepThread]; exact h

theorem allTopic_threads {id0 : Int} (l : List Thread) (tid : Nat) (th : Thread)
    (pc' : TPC) (hth : l.get? tid = some th)
    (hall : ∀ t ∈ l, t.role.topicFor id0 = true) :
    ∀ t ∈ l.set tid ⟨th.role, pc'⟩, t.role.topicFor id0 = true := by
  intro t ht
  rcases List.mem_or_eq_of_mem_set ht with hmem | heq
  · exact hall t hmem
  · rw [heq]
    exact hall th (lget_mem hth)

theorem noDone_rev_set {l : List Thread} {tid : Nat} {th : Thread} {a : Thread}
    (hth : l.get? tid = some th) (hthnd : th.pc.isDone = false)
    (hnd : ∀ t ∈ l.set tid a, t.pc.isDone = false) :
    ∀ t ∈ l, t.pc.isDone = false := by
  intro t ht
  rcases mem_lget ht with ⟨i, hi⟩
  by_cases he : i = tid
  · rw [he, hth] at hi
    injection hi with hi
    rw [← hi]
    exact hthnd
  · exact hnd t (lget_mem (by rw [lget_set_ne _ _ _ _ (fun hx => he hx.symm)]; exact hi))

theorem notNoDone_set_done (tid : Nat) (ro : Role)
    (x : Option Topic) (y : Option FetchError) (l : List Thread)
    (hlt : tid < l.length) :
    ¬ (∀ t ∈ l.set tid ⟨ro, .done x y⟩, t.pc.isDone = false) := by
  intro hnd
  have := hnd ⟨ro, .done x y⟩ (lget_mem (lget_set_self l tid _ hlt))
  simp [TPC.isDone] at this

theorem inFetch_holds {pc : TPC} (h : inFetchSection pc = true) :
    ∃ r, pcHolds pc = some r := by
  cases pc <;> simp [inFetchSection] at h <;> exact ⟨_, rfl⟩

/-! ### Preservation of the same-identifier invariant -/

theorem sameInv_done (id0 : Int) (s' s : Sys) (tid : Nat) (th : Thread)
    (x : Option Topic) (y : Option FetchError)
    (h : SameInv id0 s) (hth : s.threads.get? tid = some th)
    (hmm : s'.threads = s.threads.set tid ⟨th.role, .done x y⟩) :
    SameInv id0 s' := by
  have hnotnd : ¬ NoDone s' := by
    intro hnd
    refine notNoDone_set_done tid th.role x y s.threads (lget_lt hth) ?_
    intro t ht
    exact hnd t (by rw [hmm]; exact ht)
  constructor
  · intro t ht
    rw [hmm] at ht
    exact allTopic_threads s.threads tid th _ hth h.allTopic t ht
  · intro hnd'
    exact absurd hnd' hnotnd
  · intro hnd'
    exact absurd hnd' hnotnd

theorem sameInv_setPc (id0 : Int) (s : Sys) (tid : Nat) (th : Thread) (pc' : TPC)
    (h : SameInv id0 s) (hth : s.threads.get? tid = some th)
    (hndth : th.pc.isDone = false)
    (hrefs : ∀ r, pcRef pc' = some r → pcRef th.pc = some r)
    (hfin : inFetchSection pc' = inFetchSection th.pc) :
    SameInv id0 { s with threads := s.threads.set tid ⟨th.role, pc'⟩ } := by
  have hlt : tid < s.threads.length := lget_lt hth
  constructor
  · intro t ht
    exact allTopic_threads s.threads tid th pc' hth h.allTopic t ht
  · intro hnd' tid2 th2 r2 hget2 href2
    have hnd : NoDone s := noDone_rev_set hth hndth hnd'
    by_cases he : tid2 = tid
    · rw [he, lget_set_self _ _ _ hlt] at hget2
      injection hget2 with hget2
      rw [← hget2] at href2
      exact h.align hnd tid th r2 hth (hrefs r2 href2)
    · rw [lget_set_ne _ _ _ _ (fun hx => he hx.symm)] at hget2
      exact h.align hnd tid2 th2 r2 hget2 href2
  · intro hnd'
    have hnd : NoDone s := noDone_rev_set hth hndth hnd'
    rcases h.fcount hnd with ⟨hle, hdisj⟩
    refine ⟨hle, ?_⟩
    rcases hdisj with hz | ⟨t1, th1, hg1, hf1⟩
    · exact Or.inl hz
    · right
      by_cases he : t1 = tid
      · rw [he, hth] at hg1
        injection hg1 with hg1
        refine ⟨tid, ⟨th.role, pc'⟩, lget_set_self _ _ _ hlt, ?_⟩
        rw [hfin, hg1]
        exact hf1
      · exact ⟨t1, th1,
          by rw [lget_set_ne _ _ _ _ (fun hx => he hx.symm)]; exact hg1, hf1⟩

theorem sameInv_lookup_existing (id0 : Int) (s : Sys) (tid : Nat) (th : Thread)
    (id : Int) (now : Nat) (out : FetchOutcome) (now2 : Nat) (r0 : Nat)
    (h : SameInv id0 s) (hth : s.threads.get? tid = some th)
    (hpc : th.pc = .start) (hrole : th.role = .topicCall id now out now2)
    (hm : alookup s.map id = some r0) :
    SameInv id0 { s with threads := s.threads.set tid ⟨th.role, .haveRef r0⟩ } := by
  have hlt : tid < s.threads.length := lget_lt hth
  have hid : id = id0 := by
    have := h.allTopic th (lget_mem hth)
    rw [hrole] at this
    simpa [Role.topicFor] using this
  have hndth : th.pc.isDone = false := by rw [hpc]; rfl
  constructor
  · intro t ht
    exact allTopic_threads s.threads tid th _ hth h.allTopic t ht
  · intro hnd' tid2 th2 r2 hget2 href2
    have hnd : NoDone s := noDone_rev_set hth hndth hnd'
    by_cases he : tid2 = tid
    · rw [he, lget_set_self _ _ _ hlt] at hget2
      injection hget2 with hget2
      rw [← hget2] at href2
      simp only [pcRef] at href2
      injection href2 with href2
      rw [← href2, ← hid]
      exact hm
    · rw [lget_set_ne _ _ _ _ (fun hx => he hx.symm)] at hget2
      exact h.align hnd tid2 th2 r2 hget2 href2
  · intro hnd'
    have hnd : NoDone s := noDone_rev_set hth hndth hnd'
    rcases h.fcount hnd with ⟨hle, hdisj⟩
    refine ⟨hle, ?_⟩
    rcases hdisj with hz | ⟨t1, th1, hg1, hf1⟩
    · exact Or.inl hz
    · right
      by_cases he : t1 = tid
      · exfalso
        rw [he, hth] at hg1
        injection hg1 with hg1
        rw [← hg1, hpc] at hf1
        simp [inFetchSection] at hf1
      · exact ⟨t1, th1,
          by rw [lget_set_ne _ _ _ _ (fun hx => he hx.symm)]; exact hg1, hf1⟩

theorem sameInv_lookup_create (id0 : Int) (s : Sys) (tid : Nat) (th : Thread)
    (id : Int) (now : Nat) (out : FetchOutcome) (now2 : Nat)
    (h : SameInv id0 s) (hth : s.threads.get? tid = some th)
    (hpc : th.pc = .start) (hrole : th.role = .topicCall id now out now2)
    (hm : alookup s.map id = none) :
    SameInv id0 { s with
      heap := s.heap ++ [(⟨id, 0, none, none⟩ : EntryObj)],
      map := (id, s.heap.length) :: s.map,
      threads := s.threads.set tid ⟨th.role, .haveRef s.heap.length⟩ } := by
  have hlt : tid < s.threads.length := lget_lt hth
  have hid : id = id0 := by
    have := h.allTopic th (lget_mem hth)
    rw [hrole] at this
    simpa [Role.topicFor] using this
  have hndth : th.pc.isDone = false := by rw [hpc]; rfl
  constructor
  · intro t ht
    exact allTopic_threads s.threads tid th _ hth h.allTopic t ht
  · intro hnd' tid2 th2 r2 hget2 href2
    have hnd : NoDone s := noDone_rev_set hth hndth hnd'
    by_cases he : tid2 = tid
    · rw [he, lget_set_self _ _ _ hlt] at hget2
      injection hget2 with hget2
      rw [← hget2] at href2
      simp only [pcRef] at href2
      injection href2 with href2
      rw [← href2, ← hid]
      exact alookup_cons_self _ _ _
    · exfalso
      rw [lget_set_ne _ _ _ _ (fun hx => he hx.symm)] at hget2
      have := h.align hnd tid2 th2 r2 hget2 href2
      rw [← hid, hm] at this
      exact Option.noConfusion this
  · intro hnd'
    have hnd : NoDone s := noDone_rev_set hth hndth hnd'
    rcases h.fcount hnd with ⟨hle, hdisj⟩
    refine ⟨hle, ?_⟩
    rcases hdisj with hz | ⟨t1, th1, hg1, hf1⟩
    · exact Or.inl hz
    · right
      by_cases he : t1 = tid
      · exfalso
        rw [he, hth] at hg1
        injection hg1 with hg1
        rw [← hg1, hpc] at hf1
        simp [inFetchSection] at hf1
      · exact ⟨t1, th1,
          by rw [lget_set_ne _ _ _ _ (fun hx => he hx.symm)]; exact hg1, hf1⟩

theorem sameInv_fetchstep (id0 : Int) (s : Sys) (tid : Nat) (th : Thread) (r : Nat)
    (hs : SysInv s) (h : SameInv id0 s) (hth : s.threads.get? tid = some th)
    (hpc : th.pc = .fetching r) :
    SameInv id0 { s with
      fetchCount := s.fetchCount + 1,
      threads := s.threads.set tid ⟨th.role, .fetched r⟩ } := by
  have hlt : tid < s.threads.length := lget_lt hth
  have hndth : th.pc.isDone = false := by rw [hpc]; rfl
  constructor
  · intro t ht
    exact allTopic_threads s.threads tid th _ hth h.allTopic t ht
  · intro hnd' tid2 th2 r2 hget2 href2
    have hnd : NoDone s := noDone_rev_set hth hndth hnd'
    by_cases he : tid2 = tid
    · rw [he, lget_set_self _ _ _ hlt] at hget2
      injection hget2 with hget2
      rw [← hget2] at href2
      simp only [pcRef] at href2
      injection href2 with href2
      refine h.align hnd tid th r2 hth ?_
      rw [hpc, ← href2]
      rfl
    · rw [lget_set_ne _ _ _ _ (fun hx => he hx.symm)] at hget2
      exact h.align hnd tid2 th2 r2 hget2 href2
  · intro hnd'
    have hnd : NoDone s := noDone_rev_set hth hndth hnd'
    rcases h.fcount hnd with ⟨hle, hdisj⟩
    have hz : s.fetchCount = 0 := by
      rcases hdisj with hz | ⟨t1, th1, hg1, hf1⟩
      · exact hz
      · exfalso
        have hne : t1 ≠ tid := by
          intro he
          rw [he, hth] at hg1
          injection hg1 with hg1
          rw [← hg1, hpc] at hf1
          simp [inFetchSection] at hf1
        rcases inFetch_holds hf1 with ⟨r1, hold1⟩
        have hown1 := hs.holdOwner t1 th1 r1 hg1 hold1
        have hal1 := h.align hnd t1 th1 r1 hg1 (pcRef_of_pcHolds hold1)
        have hal2 := h.align hnd tid th r hth (by rw [hpc]; rfl)
        rw [hal2] at hal1
        injection hal1 with hal1
        have hown2 := hs.holdOwner tid th r hth (by rw [hpc]; rfl)
        rw [← hal1] at hown1
        rw [hown2] at hown1
        injection hown1 with hown1
        exact hne hown1.symm
    constructor
    · show s.fetchCount + 1 ≤ 1
      omega
    · right
      exact ⟨tid, ⟨th.role, .fetched r⟩, lget_set_self _ _ _ hlt, rfl⟩

theorem sameInv_transfer (id0 : Int) (a b : Sys) (h : SameInv id0 a)
    (hm : b.map = a.map) (ht : b.threads = a.threads)
    (hc : b.fetchCount = a.fetchCount) : SameInv id0 b := by
  have hndba : NoDone b → NoDone a := by
    intro hnd t hmem
    exact hnd t (by rw [ht]; exact hmem)
  constructor
  · intro t hmem
    rw [ht] at hmem
    exact h.allTopic t hmem
  · intro hnd tid th r hg href
    rw [ht] at hg
    rw [hm]
    exact h.align (hndba hnd) tid th r hg href
  · intro hnd
    rw [hc]
    rcases h.fcount (hndba hnd) with ⟨hle, hd⟩
    refine ⟨hle, ?_⟩
    rcases hd with hz | ⟨t1, th1, hg1, hf1⟩
    · exact Or.inl hz
    · exact Or.inr ⟨t1, th1, by rw [ht]; exact hg1, hf1⟩

theorem sameInv_step (id0 : Int) (s : Sys) (tid : Nat)
    (hs : SysInv s) (h : SameInv id0 s) : SameInv id0 (step s tid) := by
  unfold step
  cases hth : s.threads.get? tid with
  | none => exact h
  | some th =>
    obtain ⟨ro, pc⟩ := th
    cases ro with
    | topicCall id now out now2 =>
      cases pc with
      | start =>
        simp only [stepThread]
        cases hm : alookup s.map id with
        | some r0 =>
          exact sameInv_lookup_existing id0 s tid ⟨.topicCall id now out now2, .start⟩
            id now out now2 r0 h hth rfl rfl hm
        | none =>
          exact sameInv_lookup_create id0 s tid ⟨.topicCall id now out now2, .start⟩
            id now out now2 h hth rfl rfl hm
      | haveRef r =>
        simp only [stepThread]
        cases howner : (heapGet s r).owner with
        | some o => exact h
        | none =>
          by_cases hfr : (heapGet s r).time + topicCacheTimeout > now
          · rw [if_pos hfr]
            exact sameInv_done id0 _ s tid ⟨.topicCall id now out now2, .haveRef r⟩
              (heapGet s r).topic none h hth rfl
          · rw [if_neg hfr]
            refine sameInv_transfer id0
              { s with threads := s.threads.set tid (⟨Role.topicCall id now out now2, TPC.fetching r⟩ : Thread) } _
              (sameInv_setPc id0 s tid ⟨.topicCall id now out now2, .haveRef r⟩
                (.fetching r) h hth rfl (fun r' hr' => hr') rfl) rfl rfl rfl
      | fetching r =>
        simp only [stepThread]
        exact sameInv_fetchstep id0 s tid ⟨.topicCall id now out now2, .fetching r⟩
          r hs h hth rfl
      | fetched r =>
        simp only [stepThread]
        cases hout : runFetch out with
        | ok t =>
          exact sameInv_done id0 _ s tid ⟨.topicCall id now out now2, .fetched r⟩
            (some t) none h hth rfl
        | error e =>
          by_cases hfb : (heapGet s r).topic.isSome
              ∧ (heapGet s r).time + topicCacheFallback > now
          · rw [if_pos hfb]
            exact sameInv_done id0 _ s tid ⟨.topicCall id now out now2, .fetched r⟩
              (heapGet s r).topic none h hth rfl
          · rw [if_neg hfb]
            exact sameInv_setPc id0 s tid ⟨.topicCall id now out now2, .fetched r⟩
              (.evicting r) h hth rfl (fun r' hr' => hr') rfl
      | evicting r =>
        simp only [stepThread]
        cases hout : runFetch out with
        | ok t => exact h
        | error e =>
          exact sameInv_done id0 _ s tid ⟨.topicCall id now out now2, .evicting r⟩
            none (some e) h hth rfl
      | done x y =>
        simp only [stepThread]
        exact h
    | refreshCall id =>
      cases pc with
      | start =>
        simp only [stepThread]
        exact sameInv_done id0 _ s tid ⟨.refreshCall id, .start⟩ none none h hth rfl
      | haveRef r => simp only [stepThread]; exact h
      | fetching r => simp only [stepThread]; exact h
      | fetched r => simp only [stepThread]; exact h
      | evicting r => simp only [stepThread]; exact h
      | done x y => simp only [stepThread]; exact h
    | searchCall ts nw =>
      cases pc with
      | start =>
        simp only [stepThread]
        exact sameInv_done id0 _ s tid ⟨.searchCall ts nw, .start⟩ none none h hth rfl
      | haveRef r => simp only [stepThread]; exact h
      | fetching r => simp only [stepThread]; exact h
      | fetched r => simp only [stepThread]; exact h
      | evicting r => simp only [stepThread]; exact h
      | done x y => simp only [stepThread]; exact h

theorem sysInv_init (roles : List Role) : SysInv (initSys roles) := by
  have hstart : ∀ tid th, (initSys roles).threads.get? tid = some th →
      th.pc = .start := by
    intro tid th hget
    have hmem := lget_mem hget
    simp only [initSys] at hmem
    rcases List.mem_map.mp hmem with ⟨ro, -, hro⟩
    rw [← hro]
  refine ⟨?_, ?_, ?_, ?_, ?_⟩
  · simp [initSys]
  · intro p hp
    simp [initSys] at hp
  · intro tid th r hget href
    rw [hstart tid th hget] at href
    exact Option.noConfusion href
  · intro tid th r hget hhold
    rw [hstart tid th hget] at hhold
    exact Option.noConfusion hhold
  · intro r tid hr howner
    simp only [initSys] at hr
    simp at hr

theorem sameInv_init (id0 : Int) (roles : List Role)
    (hall : ∀ ro ∈ roles, ro.topicFor id0 = true) :
    SameInv id0 (initSys roles) := by
  have hstart : ∀ tid th, (initSys roles).threads.get? tid = some th →
      th.pc = .start := by
    intro tid th hget
    have hmem := lget_mem hget
    simp only [initSys] at hmem
    rcases List.mem_map.mp hmem with ⟨ro, -, hro⟩
    rw [← hro]
  constructor
  · intro t ht
    simp only [initSys] at ht
    rcases List.mem_map.mp ht with ⟨ro, hros, hro⟩
    rw [← hro]
    exact hall ro hros
  · intro hnd tid th r hget href
    rw [hstart tid th hget] at href
    exact Option.noConfusion href
  · intro hnd
    exact ⟨Nat.zero_le 1, Or.inl rfl⟩

theorem sysInv_run (s : Sys) (sched : List Nat) (h : SysInv s) :
    SysInv (runSched s sched) := by
  induction sched generalizing s with
  | nil => exact h
  | cons tid rest ih => exact ih (step s tid) (sysInv_step s tid h)

theorem sameInv_run (id0 : Int) (s : Sys) (sched : List Nat)
    (hs : SysInv s) (h : SameInv id0 s) : SameInv id0 (runSched s sched) := by
  induction sched generalizing s with
  | nil => exact h
  | cons tid rest ih =>
    exact ih (step s tid) (sysInv_step s tid hs) (sameInv_step id0 s tid hs h)

/-! ### Claim theorems: concurrency -/

/-- C8: in the interleaved model, if every thread is a `Topic` call for
the same identifier (started with nothing cached, as in the empty
initial store), then in any reachable state in which no call has yet
returned at most one fetch has been observed to completion; and a
`Topic` call blocked on an entry lock is always blocked on a lock held
by a `Topic` call for the same identifier, so calls for different
identifiers never block on each other's fetch. -/
theorem C8_single_flight :
    (∀ (roles : List Role) (sched : List Nat) (id0 : Int),
      (∀ ro ∈ roles, ro.topicFor id0 = true) →
      NoDone (runSched (initSys roles) sched) →
      (runSched (initSys roles) sched).fetchCount ≤ 1)
    ∧ (∀ (roles : List Role) (sched : List Nat) (tid1 tid2 : Nat)
        (th1 th2 : Thread) (id1 : Int) (n1 : Nat) (o1 : FetchOutcome) (m1 : Nat)
        (id2 : Int) (n2 : Nat) (o2 : FetchOutcome) (m2 : Nat) (r : Nat),
      (runSched (initSys roles) sched).threads.get? tid1 = some th1 →
      th1.role = .topicCall id1 n1 o1 m1 →
      th1.pc = .haveRef r →
      (heapGet (runSched (initSys roles) sched) r).owner = some tid2 →
      (runSched (initSys roles) sched).threads.get? tid2 = some th2 →
      th2.role = .topicCall id2 n2 o2 m2 →
      id1 = id2) := by
  constructor
  · intro roles sched id0 hall hnd
    have h := sameInv_run id0 (initSys roles) sched (sysInv_init roles)
      (sameInv_init id0 roles hall)
    exact (h.fcount hnd).1
  · intro roles sched tid1 tid2 th1 th2 id1 n1 o1 m1 id2 n2 o2 m2 r
      hget1 hrole1 hpc1 hown hget2 hrole2
    have hs := sysInv_run (initSys roles) sched (sysInv_init roles)
    have hb1 : r < (runSched (initSys roles) sched).heap.length :=
      (hs.thrRef tid1 th1 r hget1 (by rw [hpc1]; rfl)).1
    have hf1 : (heapGet (runSched (initSys roles) sched) r).forId = id1 :=
      (hs.thrRef tid1 th1 r hget1 (by rw [hpc1]; rfl)).2 id1 n1 o1 m1 hrole1
    rcases hs.ownerHold r tid2 hb1 hown with ⟨th2x, hg2x, hh2x⟩
    rw [hget2] at hg2x
    injection hg2x with hg2x
    rw [← hg2x] at hh2x
    have hf2 : (heapGet (runSched (initSys roles) sched) r).forId = id2 :=
      (hs.thrRef tid2 th2 r hget2 (pcRef_of_pcHolds hh2x)).2 id2 n2 o2 m2 hrole2
    rw [hf1] at hf2
    exact hf2

/-- Witness for C8 at concrete schedules: a single uninterleaved call
has completed at most one fetch before returning, and with two calls
for identifier 5, the second, blocked on the entry lock while the
first fetches, is blocked on a same-identifier call. -/
theorem C8_single_flight_witness :
    (runSched (initSys [roleFail]) []).fetchCount ≤ 1 ∧ (5 : Int) = 5 := by
  constructor
  · exact C8_single_flight.1 [roleFail] [] 5 (by decide) (by decide)
  · exact C8_single_flight.2 [roleFail, roleFail] [0, 1, 0] 1 0
      ⟨roleFail, .haveRef 0⟩ ⟨roleFail, .fetching 0⟩
      5 4000000000000 .noResponse 4000000000001
      5 4000000000000 .noResponse 4000000000001 0
      (by decide) rfl rfl (by decide) (by decide) rfl

/-- C7 counterexample: the claim says that in every reachable state at
most one entry object exists per identifier, all holders of an entry
for an identifier holding the same object.  Reachable trace refuting
it: threads 0, 1, 2 all call `Topic` for identifier 5; thread 0
creates entry object 0, threads 0 and 1 both obtain it from the map,
thread 0's fetch fails with nothing cached so thread 0 evicts the
entry and returns; thread 2 then creates a fresh object 1 for the same
identifier.  In the resulting state thread 1 still holds object 0
while thread 2 holds object 1, both created for identifier 5. -/
theorem C7_counterexample :
    (runSched (initSys [roleFail, roleFail, roleFail])
        [0, 1, 0, 0, 0, 0, 2]).threads.get? 1 = some ⟨roleFail, .haveRef 0⟩
    ∧ (runSched (initSys [roleFail, roleFail, roleFail])
        [0, 1, 0, 0, 0, 0, 2]).threads.get? 2 = some ⟨roleFail, .haveRef 1⟩
    ∧ (heapGet (runSched (initSys [roleFail, roleFail, roleFail])
        [0, 1, 0, 0, 0, 0, 2]) 0).forId = 5
    ∧ (heapGet (runSched (initSys [roleFail, roleFail, roleFail])
        [0, 1, 0, 0, 0, 0, 2]) 1).forId = 5
    ∧ (0 : Nat) ≠ 1 := by
  refine ⟨?_, ?_, ?_, ?_, ?_⟩ <;> decide

/-- C7 (amended): in every reachable state the store's registry maps
each identifier to at most one entry object, each registered object
and each object held by a `Topic` call was created for the matching
identifier, and the store-locked lookup is creation-idempotent: a
lookup that finds a registered entry returns exactly that object and
allocates nothing.  (After an eviction, however, an in-flight call may
keep holding the removed object while a new object is registered for
the same identifier, so distinct holders need not hold the same
object.) -/
theorem C7_registry_uniqueness (roles : List Role) (sched : List Nat) (s : Sys)
    (hs : s = runSched (initSys roles) sched) :
    (s.map.map Prod.fst).Nodup
    ∧ (∀ p ∈ s.map, p.2 < s.heap.length ∧ (heapGet s p.2).forId = p.1)
    ∧ (∀ tid th r id now out now2, s.threads.get? tid = some th →
        th.role = .topicCall id now out now2 → pcRef th.pc = some r →
        r < s.heap.length ∧ (heapGet s r).forId = id)
    ∧ (∀ tid th id now out now2 r0, s.threads.get? tid = some th →
        th.role = .topicCall id now out now2 → th.pc = .start →
        alookup s.map id = some r0 →
        (step s tid).heap = s.heap ∧ (step s tid).map = s.map
        ∧ (step s tid).threads.get? tid = some ⟨th.role, .haveRef r0⟩) := by
  subst hs
  have h := sysInv_run (initSys roles) sched (sysInv_init roles)
  refine ⟨h.mapNodup, h.mapBound, ?_, ?_⟩
  · intro tid th r id now out now2 hget hrole href
    exact ⟨(h.thrRef tid th r hget href).1,
      (h.thrRef tid th r hget href).2 id now out now2 hrole⟩
  · intro tid th id now out now2 r0 hget hrole hpc hm
    have hlt : tid < (runSched (initSys roles) sched).threads.length := lget_lt hget
    obtain ⟨ro, pc⟩ := th
    simp only at hrole hpc
    subst hrole
    subst hpc
    unfold step
    rw [hget]
    simp only [stepThread]
    rw [hm]
    exact ⟨rfl, rfl, lget_set_self _ _ _ hlt⟩

/-- Witness for the amended C7 at the counterexample trace: the
registry still holds at most one binding per identifier. -/
theorem C7_registry_uniqueness_witness :
    ((runSched (initSys [roleFail, roleFail, roleFail])
        [0, 1, 0, 0, 0, 0, 2]).map.map Prod.fst).Nodup :=
  (C7_registry_uniqueness [roleFail, roleFail, roleFail]
    [0, 1, 0, 0, 0, 0, 2] _ rfl).1
